import Mathlib

/-!
Verification development for the arm64 page-table generation tool.

The definitions below are shallow embeddings of the Python sources:
  * `pgtt/mmu.py`    — geometry resolver and system-register packing,
  * `pgtt/mmap.py`   — the `Region` value type,
  * `pgtt/table.py`  — the translation-table builder (`Table.map`),
  * `pgtt/codegen.py`— the assembly generator's table walk.
Machine integers are modelled as `Nat`/`Int`; Python dictionaries as
association lists with replace-on-assignment semantics; the global
`Table._allocated` arena as an explicit state record threaded through
the builder.  Fallible paths (assertion failures, attribute errors,
negative shifts) return an explicit failure flag.
-/

namespace PgTT

/-! ## Geometry resolver (`pgtt/mmu.py`, module level) -/

/-- `entries_per_table = args.tg // 8` (one 64-bit descriptor per slot). -/
def entriesPerTable (tg : Nat) : Nat := tg / 8

/-- Fuel-indexed binary logarithm (`⌊log₂ n⌋`, 0 at 0); structurally
recursive so that it evaluates inside the kernel.  With fuel at least `n`
it computes `Nat.log2 n`. -/
def log2fuel : Nat → Nat → Nat
  | 0, _ => 0
  | fuel + 1, n => if 2 ≤ n then log2fuel fuel (n / 2) + 1 else 0

/-- `⌊log₂ n⌋` (0 at 0). -/
def natLog2 (n : Nat) : Nat := log2fuel n n

/-- `block_offset_bits = int(math.log(args.tg, 2))`: bits indexing a byte in a
granule.  For the supported power-of-two granules the float computation is
exact, so this is the integer base-2 logarithm. -/
def blockOffsetBits (tg : Nat) : Nat := natLog2 tg

/-- `table_idx_bits = int(math.log(entries_per_table, 2))`. -/
def tableIdxBits (tg : Nat) : Nat := natLog2 (entriesPerTable tg)

/-- `pgtt/mmu.py` lines 40-43:
`start_level = 3 - (args.tsz - block_offset_bits) // table_idx_bits`,
then incremented by one when `(tsz - block_offset_bits) % table_idx_bits == 0`.
Python integers are signed, so the computation lives in `Int`. -/
def startLevel (tg tsz : Nat) : Int :=
  let d : Int := (tsz : Int) - (blockOffsetBits tg : Int)
  let ib : Int := (tableIdxBits tg : Int)
  let s : Int := 3 - d / ib
  if d % ib = 0 then s + 1 else s

/-- The formula stated by the claim (spec wording): start level
`3 - ceil_div(tsz - offset_bits, index_bits)`, incremented by one exactly
when `(tsz - offset_bits)` is an exact multiple of `index_bits`.  Written
from the claim's words, to be compared with `startLevel` (the code). -/
def claimStartLevel (tg tsz : Nat) : Int :=
  let d : Nat := tsz - blockOffsetBits tg
  let ib : Nat := tableIdxBits tg
  let s : Int := 3 - ((d + ib - 1) / ib : Nat)
  if d % ib = 0 then s + 1 else s

/-- Supported granule sizes. -/
def supportedTg : List Nat := [4 * 1024, 16 * 1024, 64 * 1024]

/-- Supported virtual-address sizes. -/
def supportedTsz : List Nat := [32, 36, 40, 48]

/-- Supported exception levels. -/
def supportedEl : List Nat := [1, 2, 3]

/-- Resolved command-line configuration (`pgtt/args.py`): granule size in
bytes, virtual address size, exception level, translation table base. -/
structure Config where
  tg : Nat
  tsz : Nat
  el : Nat
  ttb : Nat
deriving DecidableEq, Repr

/-! ## Region model (`pgtt/mmap.py`) -/

/-- `MEMORY_TYPE` enum. -/
inductive MEMORY_TYPE where
  | device
  | rw_data
  | code
deriving DecidableEq, Repr

/-- `Region` dataclass.  `num_contig` is a class attribute defaulting to 1. -/
structure Region where
  lineno : Nat
  label : String
  addr : Nat
  length : Nat
  memory_type : MEMORY_TYPE
  num_contig : Nat := 1
deriving DecidableEq, Repr

/-- `Region.copy(length=len)`: fresh `Region` (so `num_contig` resets to the
class default 1) with `length` overridden. -/
def Region.copyLength (r : Region) (len : Nat) : Region :=
  ⟨r.lineno, r.label, r.addr, len, r.memory_type, 1⟩

/-- `Region.copy(addr=a)`. -/
def Region.copyAddr (r : Region) (a : Nat) : Region :=
  ⟨r.lineno, r.label, a, r.length, r.memory_type, 1⟩

/-- `Region.copy(addr=a, length=len)`. -/
def Region.copyAddrLength (r : Region) (a len : Nat) : Region :=
  ⟨r.lineno, r.label, a, len, r.memory_type, 1⟩

/-! ## Translation table builder (`pgtt/table.py`)

A `Table.entries` dictionary maps an entry index to either a `Region`
(block/page leaf) or a next-level `Table`.  The Python object graph plus the
class-level `Table._allocated` list is modelled as an arena: `St.tables` is
the allocation-ordered list of nodes and child pointers are arena indices.
`St.overwrote` records whether any dictionary assignment ever hit a key that
was already present (an entry index assigned twice). -/

/-- One slot of a table's `entries` dict. -/
inductive Entry where
  | region (r : Region)
  | table (tid : Nat)
deriving DecidableEq, Repr

/-- One `Table` object: `addr`, `level`, `chunk`, `va_base` (all immutable
after construction) and the `entries` dict. -/
structure TableNode where
  addr : Nat
  level : Nat
  chunk : Nat
  va_base : Nat
  entries : List (Nat × Entry)
deriving DecidableEq, Repr

/-- The global builder state: `Table._allocated` in allocation order, plus
the double-assignment tracking flag. -/
structure St where
  tables : List TableNode
  overwrote : Bool
deriving DecidableEq, Repr

/-- Dict lookup `d[i]`. -/
def dictLookup : List (Nat × Entry) → Nat → Option Entry
  | [], _ => none
  | (k, e) :: rest, i => if k = i then some e else dictLookup rest i

/-- Dict membership `i in d`. -/
def dictContains (l : List (Nat × Entry)) (i : Nat) : Bool :=
  (dictLookup l i).isSome

/-- Dict assignment `d[i] = e`: replace in place if the key is present,
append otherwise.  The boolean reports whether the key was already present,
i.e. whether this assignment assigned an entry index a second time. -/
def dictSet : List (Nat × Entry) → Nat → Entry → List (Nat × Entry) × Bool
  | [], i, e => ([(i, e)], false)
  | (k, e') :: rest, i, e =>
    if k = i then ((k, e) :: rest, true)
    else
      let p := dictSet rest i e
      ((k, e') :: p.1, p.2)

/-- Replace table node `tid` (no-op when out of range, which never happens
on reachable states). -/
def St.setTable (st : St) (tid : Nat) (t : TableNode) : St :=
  { st with tables := st.tables.set tid t }

/-- `Table.__init__` (`pgtt/table.py` lines 25-44): physical address
`args.ttb + len(Table._allocated) * args.tg`, chunk
`args.tg << ((3 - level) * mmu.table_idx_bits)`, then append to the arena.
Returns the new state and the arena index of the new table. -/
def allocTable (cfg : Config) (st : St) (level : Nat) (va_base : Nat) : St × Nat :=
  let tid := st.tables.length
  let node : TableNode :=
    { addr := cfg.ttb + st.tables.length * cfg.tg
      level := level
      chunk := cfg.tg <<< ((3 - level) * tableIdxBits cfg.tg)
      va_base := va_base
      entries := [] }
  ({ st with tables := st.tables ++ [node] }, tid)

/-- `Table.prepare_next(idx, va_base)` (`pgtt/table.py` lines 47-58):
allocate a next-level table at `entries[idx]` unless the index is already
present.  `none` models the `ValueError` Python raises in `Table.__init__`
when asked for a level-4 table (negative shift count), and the impossible
out-of-range arena access. -/
def prepareNext (cfg : Config) (st : St) (tid idx : Nat) (va : Option Nat) : Option St :=
  match st.tables[tid]? with
  | none => none
  | some t =>
    if dictContains t.entries idx then some st
    else if t.level + 1 > 3 then none
    else
      let vb := match va with
        | some v => v
        | none => t.va_base + idx * t.chunk
      let p := allocTable cfg st (t.level + 1) vb
      match p.1.tables[tid]? with
      | none => none
      | some t1 =>
        let q := dictSet t1.entries idx (Entry.table p.2)
        some { (p.1.setTable tid { t1 with entries := q.1 }) with
               overwrote := p.1.overwrote || q.2 }

/-- Fetch `entries[idx]` when it holds a next-level table.  `none` models the
`AttributeError` Python raises when `.map` is invoked on a stored `Region`. -/
def childEntry (st : St) (tid idx : Nat) : Option Nat :=
  match st.tables[tid]? with
  | none => none
  | some t =>
    match dictLookup t.entries idx with
    | some (Entry.table ctid) => some ctid
    | _ => none

/-- `num_chunks = region.length // self.chunk` (`pgtt/table.py` line 76). -/
def numChunksInit (length chunk : Nat) : Nat := length / chunk

/-- `start_idx = (region.addr // self.chunk) % mmu.entries_per_table`
(`pgtt/table.py` line 77). -/
def startIdxOf (addr chunk ept : Nat) : Nat := (addr / chunk) % ept

/-- `underflow = region.addr % self.chunk` (`pgtt/table.py` line 109). -/
def underflowOf (addr chunk : Nat) : Nat := addr % chunk

/-- `overflow = (region.addr + region.length) % self.chunk`
(`pgtt/table.py` line 130). -/
def overflowOf (addr length chunk : Nat) : Nat := (addr + length) % chunk

/-- The value of `num_chunks` on entry to the complete-chunks loop: the
initial count, minus one when the overflow branch ran (line 137), minus one
more when `underflow + overflow == self.chunk` (lines 144-145).  Python
integers are signed, so the result lives in `Int` (it can reach `-1`). -/
def numChunksFinal (addr length chunk : Nat) : Int :=
  let n : Int := (numChunksInit length chunk : Int)
  let n := if overflowOf addr length chunk ≠ 0 then n - 1 else n
  if underflowOf addr chunk + overflowOf addr length chunk = chunk then n - 1 else n

/-- The complete-chunk indices `range(start_idx, start_idx + num_chunks)`
(`pgtt/table.py` line 147); empty when `num_chunks` went negative. -/
def loopIndices (start : Nat) (n : Int) : List Nat :=
  (List.range n.toNat).map (fun k => start + k)

/-- `blocks_allowed = self.level >= (1 if args.tg_str == "4K" else 2)`
(`pgtt/table.py` line 143). -/
def blocksAllowedAt (cfg : Config) (level : Nat) : Bool :=
  (if cfg.tg = 4 * 1024 then 1 else 2) ≤ level

/-- Result of a `Table.map` call.  `reg` is the final state of the (mutable)
`Region` object that was passed in; `phase` records the `self.chunk` written
into that object by line 142 (`region.length = self.chunk`), when reached;
`ok = false` models an escaped Python exception (assertion failure,
attribute error, negative shift) — the state built so far is kept, matching
exception semantics. -/
structure MapResult where
  st : St
  reg : Region
  phase : Option Nat
  ok : Bool
deriving DecidableEq, Repr

/-- The complete-chunks loop (`pgtt/table.py` lines 147-155).  `mr` is the
recursive `Table.map` call used when blocks are not allowed at this level;
`template` is the region object after line 142 mutated its length to
`self.chunk`. -/
def mapChunksLoop (cfg : Config) (mr : St → Nat → Region → MapResult)
    (tid : Nat) (blocksOk : Bool) (template : Region) (va chunk : Nat) :
    St → List Nat → St × Bool
  | st, [] => (st, true)
  | st, i :: rest =>
    let r := template.copyAddr (va + i * chunk)
    if blocksOk then
      match st.tables[tid]? with
      | none => (st, false)
      | some t =>
        let q := dictSet t.entries i (Entry.region r)
        let st1 := { (st.setTable tid { t with entries := q.1 }) with
                     overwrote := st.overwrote || q.2 }
        mapChunksLoop cfg mr tid blocksOk template va chunk st1 rest
    else
      match prepareNext cfg st tid i none with
      | none => (st, false)
      | some st1 =>
        match childEntry st1 tid i with
        | none => (st1, false)
        | some ctid =>
          let m := mr st1 ctid r
          if m.ok then mapChunksLoop cfg mr tid blocksOk template va chunk m.st rest
          else (m.st, false)

/-- `self.entries[start_idx].num_contig = num_contiguous_blocks`
(`pgtt/table.py` line 157).  When the entry is a next-level `Table`, Python
sets an attribute on the table object that nothing ever reads; that case is
a no-op here. -/
def setNumContig (st : St) (tid idx n : Nat) : St :=
  match st.tables[tid]? with
  | none => st
  | some t =>
    match dictLookup t.entries idx with
    | some (Entry.region r) =>
      st.setTable tid
        { t with entries := (dictSet t.entries idx (Entry.region { r with num_contig := n })).1 }
    | _ => st

/-- The complete-chunks phase of `Table.map` (`pgtt/table.py` lines
139-157): line 142 mutates the caller's region (`region.length =
self.chunk`), then the loop writes the remaining whole chunks and line 157
records the contiguous run length on the first written entry. -/
def mapCompletePhase (cfg : Config) (mr : St → Nat → Region → MapResult)
    (st2 : St) (tid : Nat) (region : Region) (t0 : TableNode) (startIdx1 : Nat) : MapResult :=
  let reg' : Region := { region with length := t0.chunk }
  let blocksOk := blocksAllowedAt cfg t0.level
  let idxs := loopIndices startIdx1 (numChunksFinal region.addr region.length t0.chunk)
  let p := mapChunksLoop cfg mr tid blocksOk reg' t0.va_base t0.chunk st2 idxs
  if p.2 then
    let st4 := if 0 < idxs.length then setNumContig p.1 tid startIdx1 idxs.length else p.1
    ⟨st4, reg', some t0.chunk, true⟩
  else ⟨p.1, reg', some t0.chunk, false⟩

/-- Overflow handling (`pgtt/table.py` lines 130-137) followed by the
complete-chunks phase, entered once the floating and underflow cases are
done.  `startIdx1` is `start_idx` after the underflow bump. -/
def mapTail (cfg : Config) (mr : St → Nat → Region → MapResult)
    (st : St) (tid : Nat) (region : Region) (t0 : TableNode) (startIdx1 : Nat) : MapResult :=
  let u := underflowOf region.addr t0.chunk
  let o := overflowOf region.addr region.length t0.chunk
  let numChunks0 := numChunksInit region.length t0.chunk
  if o ≠ 0 then
    let finalIdx := startIdx1 + numChunks0 - (if u ≠ 0 then 1 else 0)
    let vb := ((region.addr + region.length) / t0.chunk) * t0.chunk
    match prepareNext cfg st tid finalIdx (some vb) with
    | none => ⟨st, region, none, false⟩
    | some st1 =>
      match childEntry st1 tid finalIdx with
      | none => ⟨st1, region, none, false⟩
      | some ctid =>
        let m := mr st1 ctid (region.copyAddrLength vb o)
        if m.ok then mapCompletePhase cfg mr m.st tid region t0 startIdx1
        else ⟨m.st, region, none, false⟩
  else mapCompletePhase cfg mr st tid region t0 startIdx1

/-- `Table.map` (`pgtt/table.py` lines 61-157), fuel-indexed.  The recursion
depth of the Python code is bounded by the number of translation levels, so
any fuel above that bound gives the exact semantics. -/
def mapRegion (cfg : Config) (fuel : Nat) (st : St) (tid : Nat) (region : Region) : MapResult :=
  match fuel with
  | 0 => ⟨st, region, none, false⟩
  | fuel + 1 =>
    match st.tables[tid]? with
    | none => ⟨st, region, none, false⟩
    | some t =>
      let ept := entriesPerTable cfg.tg
      -- the two asserts at lines 68-69
      if ¬ (t.va_base ≤ region.addr ∧ region.addr + region.length ≤ t.va_base + ept * t.chunk) then
        ⟨st, region, none, false⟩
      else
        let numChunks0 := numChunksInit region.length t.chunk
        let startIdx0 := startIdxOf region.addr t.chunk ept
        if numChunks0 = 0 then
          -- floating region (lines 89-93): dispatch the same object downwards
          match prepareNext cfg st tid startIdx0 none with
          | none => ⟨st, region, none, false⟩
          | some st1 =>
            match childEntry st1 tid startIdx0 with
            | none => ⟨st1, region, none, false⟩
            | some ctid => mapRegion cfg fuel st1 ctid region
        else
          let u := underflowOf region.addr t.chunk
          if u ≠ 0 then
            -- underflow (lines 109-114): dispatch a truncated copy
            match prepareNext cfg st tid startIdx0 none with
            | none => ⟨st, region, none, false⟩
            | some st1 =>
              match childEntry st1 tid startIdx0 with
              | none => ⟨st1, region, none, false⟩
              | some ctid =>
                let m := mapRegion cfg fuel st1 ctid (region.copyLength (t.chunk - u))
                if m.ok then
                  mapTail cfg (fun s i r => mapRegion cfg fuel s i r) m.st tid region t (startIdx0 + 1)
                else ⟨m.st, region, none, false⟩
          else
            mapTail cfg (fun s i r => mapRegion cfg fuel s i r) st tid region t startIdx0

/-- The module-level driver of `pgtt/table.py` lines 202-203:
`root = Table()` then `[root.map(r) for r in mmap.regions]`.  A raised
exception terminates the whole program, so mapping stops at the first
failure. -/
def runRegions (cfg : Config) (fuel : Nat) : St → List Region → St
  | st, [] => st
  | st, r :: rest =>
    let m := mapRegion cfg fuel st 0 r
    if m.ok then runRegions cfg fuel m.st rest else m.st

/-- Initial state: the arena holding just the root table, at
`level = mmu.start_level`, covering virtual address 0 upwards. -/
def initSt (cfg : Config) : St :=
  (allocTable cfg ⟨[], false⟩ (startLevel cfg.tg cfg.tsz).toNat 0).1

/-- Build the full table forest for a parsed region list. -/
def buildTables (cfg : Config) (regions : List Region) : St :=
  runRegions cfg 8 (initSt cfg) regions

/-- All leaf (block/page) entries of the forest, as
(arena table index, entry index, stored region) triples. -/
def leafEntries (st : St) : List (Nat × Nat × Region) :=
  st.tables.enum.flatMap (fun p =>
    p.2.entries.filterMap (fun q =>
      match q.2 with
      | Entry.region r => some (p.1, q.1, r)
      | Entry.table _ => none))

/-! ## Assembly generator table walk (`pgtt/codegen.py`, `_mk_asm`) -/

/-- One piece of output of `_mk_asm` for a table: either one `_mk_blocks`
write loop covering `r.num_contig` contiguous entries starting at `idx`, or
one `_mk_next_level_table` pointer write. -/
inductive Emission where
  | blocks (idx : Nat) (r : Region)
  | nextTable (idx : Nat) (ctid : Nat)
deriving DecidableEq, Repr

/-- Insertion sort step, used to model `sorted(list(t.entries.keys()))`. -/
def insertSorted (x : Nat) : List Nat → List Nat
  | [] => [x]
  | y :: ys => if x ≤ y then x :: y :: ys else y :: insertSorted x ys

/-- `sorted(list(t.entries.keys()))`. -/
def sortKeys (l : List Nat) : List Nat := l.foldr insertSorted []

/-- `keys.remove(k)`: drop the first occurrence, `None` models the
`ValueError` raised when `k` is absent. -/
def removeKey : List Nat → Nat → Option (List Nat)
  | [], _ => none
  | k :: rest, x => if k = x then some rest else (removeKey rest x).map (fun l => k :: l)

/-- `for k in range(idx, idx + entry.num_contig): keys.remove(k)`. -/
def removeRun : List Nat → List Nat → Option (List Nat)
  | keys, [] => some keys
  | keys, k :: ks =>
    match removeKey keys k with
    | none => none
    | some keys' => removeRun keys' ks

/-- The `while keys:` worklist loop of `_mk_asm` (`pgtt/codegen.py` lines
114-124) for one table: a `Region` head entry emits one contiguous-range
write loop and removes every index it covers from the worklist; a `Table`
head entry emits one next-level pointer write.  Fuel-indexed; any fuel at
least the initial worklist length is enough. -/
def mkAsmSteps (look : Nat → Option Entry) : Nat → List Nat → Option (List Emission)
  | _, [] => some []
  | 0, _ :: _ => none
  | fuel + 1, idx :: rest =>
    match look idx with
    | some (Entry.region r) =>
      match removeRun (idx :: rest) ((List.range r.num_contig).map (fun k => idx + k)) with
      | none => none
      | some keys' => (mkAsmSteps look fuel keys').map (fun es => Emission.blocks idx r :: es)
    | some (Entry.table c) =>
      (mkAsmSteps look fuel rest).map (fun es => Emission.nextTable idx c :: es)
    | none => none

/-- The generator's emissions for one table. -/
def tableEmissions (t : TableNode) : Option (List Emission) :=
  let keys := sortKeys (t.entries.map Prod.fst)
  mkAsmSteps (dictLookup t.entries) keys.length keys

/-! ## System register packing (`pgtt/mmu.py`, classes `Bitfield` and
`Register` as defined locally in that file, and `_tcr`) -/

/-- `Bitfield(hi, lo, value).value = (value & ((1 << (hi-lo+1)) - 1)) << lo`. -/
def bitfieldValue (hi lo value : Nat) : Nat :=
  (value % 2 ^ (hi - lo + 1)) * 2 ^ lo

/-- A `Register` under construction: the insertion-ordered `fields` dict
(storing each `Bitfield.value`) and the `res1s` list. -/
structure Register where
  fields : List (String × Nat)
  res1s : List Nat
deriving DecidableEq, Repr

/-- Dict assignment for the `fields` dict. -/
def dictSetStr : List (String × Nat) → String → Nat → List (String × Nat)
  | [], n, v => [(n, v)]
  | (k, v') :: rest, n, v =>
    if k = n then (k, v) :: rest else (k, v') :: dictSetStr rest n v

/-- `Register.field(hi, lo, name, value)`. -/
def Register.fieldAdd (r : Register) (hi lo : Nat) (n : String) (v : Nat) : Register :=
  { r with fields := dictSetStr r.fields n (bitfieldValue hi lo v) }

/-- `Register.res1(pos)`. -/
def Register.addRes1 (r : Register) (pos : Nat) : Register :=
  { r with res1s := r.res1s ++ [2 ^ pos] }

/-- `reg.fields["ps"].value = raw`: clobbers the stored `Bitfield.value`
with an unshifted raw number (`pgtt/mmu.py` line 135). -/
def Register.fieldRawOverwrite (r : Register) (n : String) (raw : Nat) : Register :=
  { r with fields := dictSetStr r.fields n raw }

/-- The local variable `val` of `Register.value` (`pgtt/mmu.py` lines
100-102): OR-fold of all field values and RES1 bits. -/
def Register.valueFold (r : Register) : Nat :=
  (r.fields.map Prod.snd ++ r.res1s).foldl Nat.lor 0

/-- `Register.value` as written in `pgtt/mmu.py` lines 96-104: it computes
the fold into a local, rebinds it to its hex string, logs it — and falls off
the end, so the call returns `None`.  (The sibling `pgtt/register.py` has
the same class with `return val`.) -/
def Register.valueRet (r : Register) : Option Nat :=
  let _val := r.valueFold
  none

/-- `{32:0, 36:1, 40:2, 48:5}[tsz]` (total here; Python raises `KeyError`
outside the supported sizes, which argparse already excluded). -/
def psRaw (tsz : Nat) : Nat :=
  if tsz = 32 then 0 else if tsz = 36 then 1 else if tsz = 40 then 2
  else if tsz = 48 then 5 else 0

/-- The `Register` built by `_tcr` (`pgtt/mmu.py` lines 107-137):
`t0sz`, `irgn0`, `orgn0`, `sh0`, `tg0` (via `[4K,16K,64K].index(tg)`),
RES1 bit 23, the EL-dependent `ps` field and RES1 bit 31, and finally the
raw overwrite of `ps` with the unshifted `{32:0,36:1,40:2,48:5}[tsz]`. -/
def tcrRegister (cfg : Config) : Register :=
  let reg : Register := ⟨[], []⟩
  let reg := reg.fieldAdd 5 0 "t0sz" (64 - cfg.tsz)
  let reg := reg.fieldAdd 9 8 "irgn0" 1
  let reg := reg.fieldAdd 11 10 "orgn0" 1
  let reg := reg.fieldAdd 13 12 "sh0" 3
  let reg := reg.fieldAdd 15 14 "tg0" (List.indexOf cfg.tg supportedTg)
  let reg := reg.addRes1 23
  let reg :=
    if cfg.el = 1 then reg.fieldAdd 34 32 "ps" 0
    else (reg.fieldAdd 18 16 "ps" 0).addRes1 31
  reg.fieldRawOverwrite "ps" (psRaw cfg.tsz)

/-- `mmu.tcr = _tcr()`: the value the rest of the program sees. -/
def tcr (cfg : Config) : Option Nat := (tcrRegister cfg).valueRet

/-- The OR-fold `_tcr` computes internally before dropping it. -/
def tcrVal (cfg : Config) : Nat := (tcrRegister cfg).valueFold

/-- The TCR value described by the claim: T0SZ=64-tsz at [5:0], IRGN0=1 at
[9:8], ORGN0=1 at [11:10], SH0=3 at [13:12], TG0 at [15:14] with 4K→0,
64K→1, 16K→2, PS per {32:0,36:1,40:2,48:5} at [34:32] when EL=1 and at
[18:16] when EL∈{2,3}, RES1 bit 23 always and RES1 bit 31 at EL∈{2,3}.
Written from the claim's words, to be compared with the code. -/
def claimedTcr (el tsz tg : Nat) : Nat :=
  let tg0 : Nat := if tg = 4 * 1024 then 0 else if tg = 64 * 1024 then 1 else 2
  let ps := psRaw tsz
  let psShifted := if el = 1 then ps <<< 32 else ps <<< 16
  (64 - tsz) ||| (1 <<< 8) ||| (1 <<< 10) ||| (3 <<< 12) ||| (tg0 <<< 14) |||
    psShifted ||| 2 ^ 23 ||| (if el = 1 then 0 else 2 ^ 31)

/-! ## Descriptor templates

`pgtt/codegen.py` lines 206-213 call `mmu.block_template(memory_type=...)`
and `mmu.page_template(memory_type=...)`, but `pgtt/mmu.py` defines no such
functions: the code that decides claim C8 is not in the sources. -/

/-- Modelled from the spec: `block_template`/`page_template` are invoked by
the generator but absent from `pgtt/mmu.py`; this follows spec §4.2 — valid
bit, type bit (page vs block), AttrIndx (Device=1, Normal=0), AP bits for
Code-vs-Data access permission, Shareability=Inner, Access-Flag=1, and an
execute-never bit for Device/RW-Data (clear for Code) at bit 53 (`pxn`) for
EL1 and bit 54 (`xn`) for EL2/EL3. -/
def descriptorTemplate (isPage : Bool) (mt : MEMORY_TYPE) (el : Nat) : Nat :=
  let valid := 1
  let typeBit := if isPage then 2 else 0
  let attrIndx := (if mt = MEMORY_TYPE.device then 1 else 0) <<< 2
  let ap := (if mt = MEMORY_TYPE.code then 2 else 0) <<< 6
  let sh := 3 <<< 8
  let af := 1 <<< 10
  let xnBit := if mt = MEMORY_TYPE.code then 0
               else if el = 1 then 2 ^ 53 else 2 ^ 54
  valid ||| typeBit ||| attrIndx ||| ap ||| sh ||| af ||| xnBit

/-- Modelled from the spec: `block_template(memory_type, el)`. -/
def block_template (mt : MEMORY_TYPE) (el : Nat) : Nat :=
  descriptorTemplate false mt el

/-- Modelled from the spec: `page_template(memory_type, el)`. -/
def page_template (mt : MEMORY_TYPE) (el : Nat) : Nat :=
  descriptorTemplate true mt el

/-! ## Module attribute model (for the pipeline's fatal name errors)

Python resolves `module.attr` against the names the module's top level
defines; a miss raises an uncaught `AttributeError`. -/

/-- Python attribute lookup on a module: `some` iff the name is defined. -/
def pyGetAttr (attrs : List String) (n : String) : Option String :=
  if n ∈ attrs then some n else none

/-- The names defined at the top level of `pgtt/mmu.py`: its imports, the
geometry constants, the two local classes, the two private builders and the
four register values. -/
def mmuModuleAttrs : List String :=
  ["math", "dataclass", "args", "log",
   "entries_per_table", "block_offset_bits", "table_idx_bits", "start_level",
   "Bitfield", "Register", "_tcr", "tcr", "mair", "ttbr", "_sctlr", "sctlr"]

/-- The names defined at the top level of `pgtt/codegen.py`. -/
def codegenModuleAttrs : List String :=
  ["args", "log", "mmu", "table", "mmap", "Region",
   "_mk_table", "_mk_blocks", "_mk_next_level_table", "_mk_asm",
   "_newline", "_tmp", "output"]

/-- Attributes `pgtt/codegen.py` reads off the `mmu` module (lines 198-234):
the descriptor-template builders and the four register values. -/
def codegenMmuReads : List String :=
  ["block_template", "page_template", "ttbr", "mair", "tcr", "sctlr"]

/-- The attribute `pgtt/__init__.py` line 35 reads off `codegen`:
`print(codegen.template)`. -/
def initCodegenRead : String := "template"

/-! ## Invariants for the no-double-assignment proof (claim C4) -/

/-- Entry index `i` of table `t` is occupied. -/
def occB (st : St) (t i : Nat) : Bool :=
  match st.tables[t]? with
  | some node => dictContains node.entries i
  | none => false

/-- Level of arena table `t` (0 when out of range). -/
def levelOf (st : St) (t : Nat) : Nat :=
  match st.tables[t]? with
  | some n => n.level
  | none => 0

/-- Chunk size of arena table `t` (0 when out of range). -/
def chunkOf (st : St) (t : Nat) : Nat :=
  match st.tables[t]? with
  | some n => n.chunk
  | none => 0

/-- `va_base` of arena table `t` (0 when out of range). -/
def vaOf (st : St) (t : Nat) : Nat :=
  match st.tables[t]? with
  | some n => n.va_base
  | none => 0

/-- Low end of the virtual range translated by entry `i` of table `t`. -/
def chunkLo (st : St) (t i : Nat) : Nat := vaOf st t + i * chunkOf st t

/-- High end (exclusive) of the virtual range of entry `i` of table `t`. -/
def chunkHi (st : St) (t i : Nat) : Nat := chunkLo st t i + chunkOf st t

/-- `[lo1, hi1) ⊆ [lo2, hi2)` for half-open intervals. -/
def ivSub (lo1 hi1 lo2 hi2 : Nat) : Prop := lo2 ≤ lo1 ∧ hi1 ≤ hi2

/-- `[lo1, hi1) ∩ [lo2, hi2) ≠ ∅` for nonempty half-open intervals. -/
def ivMeets (lo1 hi1 lo2 hi2 : Nat) : Prop := lo1 < hi2 ∧ lo2 < hi1

/-- The geometry (immutable part) of arena table `t`. -/
def geomOf (st : St) (t : Nat) : Option (Nat × Nat × Nat × Nat) :=
  (st.tables[t]?).map (fun n => (n.addr, n.level, n.chunk, n.va_base))

/-- Well-formedness of a builder state: every table's chunk obeys the
constructor's formula from a level of at most 3 and its `va_base` is aligned
to the table's whole span, and every child pointer targets an allocated
table one level down. -/
def WF (cfg : Config) (st : St) : Prop :=
  (∀ (t : Nat) (n : TableNode), st.tables[t]? = some n →
      n.level ≤ 3 ∧
      n.chunk = cfg.tg <<< ((3 - n.level) * tableIdxBits cfg.tg) ∧
      entriesPerTable cfg.tg * n.chunk ∣ n.va_base) ∧
  (∀ (t : Nat) (n : TableNode) (i ctid : Nat), st.tables[t]? = some n →
      dictLookup n.entries i = some (Entry.table ctid) →
      ctid < st.tables.length ∧ levelOf st ctid = n.level + 1)

/-- No occupied entry of any table at level `lvl` or deeper has its chunk
wholly inside `[lo, hi)`.  Entries of shallower tables are exempt: they are
the parent-chain pointers leading down to the piece being mapped. -/
def OccP (st : St) (lvl lo hi : Nat) : Prop :=
  ∀ t i, occB st t i = true → lvl ≤ levelOf st t →
    ¬ ivSub (chunkLo st t i) (chunkHi st t i) lo hi

/-- Postcondition of one `Table.map` call on a piece `[lo, hi)` dispatched
at a table of level `lvl`: the double-assignment flag is untouched, the
arena only grows, geometry of existing tables is unchanged, well-formedness
is kept, and every newly occupied entry's chunk meets `[lo, hi)` and sits at
level `lvl` or below. -/
def MapPost (cfg : Config) (st st' : St) (lvl lo hi : Nat) : Prop :=
  st'.overwrote = st.overwrote ∧
  st.tables.length ≤ st'.tables.length ∧
  (∀ t, t < st.tables.length → geomOf st' t = geomOf st t) ∧
  WF cfg st' ∧
  (∀ t i, occB st' t i = true →
      occB st t i = true ∨
      (ivMeets (chunkLo st' t i) (chunkHi st' t i) lo hi ∧ lvl ≤ levelOf st' t))

/-- A recursive-call oracle for `Table.map` satisfying the per-call
contract: called on a table of level `lvl` with a nonempty piece whose
interval is clear per `OccP`, it preserves the double-assignment flag,
grows the arena monotonically, keeps geometry and well-formedness, and only
occupies entries whose chunks meet the piece, at level `lvl` or deeper. -/
def MRCallbackOK (cfg : Config) (mr : St → Nat → Region → MapResult) : Prop :=
  ∀ (st : St) (tid : Nat) (r : Region),
    WF cfg st → 0 < r.length →
    OccP st (levelOf st tid) r.addr (r.addr + r.length) →
    MapPost cfg st (mr st tid r).st (levelOf st tid) r.addr (r.addr + r.length)

/-- The input contract of the Region Model collaborator: ascending and
mutually non-overlapping. -/
def regionsSortedDisjoint (rs : List Region) : Prop :=
  List.Pairwise (fun r1 r2 => r1.addr + r1.length ≤ r2.addr) rs

/-- The per-region invariant of the Region Model (spec §3): base address
and length are multiples of the granule, and length is positive. -/
def regionsAligned (tg : Nat) (rs : List Region) : Prop :=
  ∀ r ∈ rs, tg ∣ r.addr ∧ tg ∣ r.length ∧ 0 < r.length

/-- The leaf region the complete-chunks loop stores at index `i` of table
`t` while mapping `r`: the full-chunk copy with contiguous count `n`. -/
def leafRegionAt (r : Region) (t : TableNode) (n i : Nat) : Region :=
  ⟨r.lineno, r.label, t.va_base + i * t.chunk, t.chunk, r.memory_type, n⟩

/-- The entries of a table holding one contiguous run of `N` complete-chunk
leaves for `r` starting at index `s0`: the first entry carries contiguous
count `N`, the remaining `N - 1` carry count 1. -/
def runEntriesOf (r : Region) (t : TableNode) (s0 N : Nat) : List (Nat × Entry) :=
  (s0, Entry.region (leafRegionAt r t N s0)) ::
    (List.range (N - 1)).map (fun k =>
      (s0 + 1 + k, Entry.region (leafRegionAt r t 1 (s0 + 1 + k))))

/-! ## Theorems -/

/-- Membership in the complete-chunks index range. -/
theorem mem_loopIndices {j s : Nat} {n : Int} :
    j ∈ loopIndices s n ↔ s ≤ j ∧ (j : Int) < (s : Int) + n := by
  simp only [loopIndices, List.mem_map, List.mem_range]
  constructor
  · rintro ⟨k, hk, rfl⟩
    omega
  · rintro ⟨h1, h2⟩
    exact ⟨j - s, by omega, by omega⟩

/-- C1, counterexample: at granule 4K and tsz 32 the Geometry Resolver
computes start level 1, while the claimed formula
`3 - ceil_div(tsz - offset_bits, index_bits)` (with the exact-multiple
correction) yields 0. -/
theorem C1_counterexample :
    startLevel (4 * 1024) 32 = 1 ∧ claimStartLevel (4 * 1024) 32 = 0 ∧
    claimStartLevel (4 * 1024) 32 ≠ startLevel (4 * 1024) 32 := by
  decide

/-- C1, amended: for every supported granule and virtual-address size, the
starting level equals `3 - floor_div(tsz - offset_bits, index_bits)`,
incremented by one exactly when `(tsz - offset_bits)` is an exact multiple
of `index_bits` (floor division, not ceiling division). -/
theorem C1_start_level_formula (tg tsz : Nat)
    (h1 : tg ∈ supportedTg) (h2 : tsz ∈ supportedTsz) :
    startLevel tg tsz =
      3 - (((tsz - blockOffsetBits tg) / tableIdxBits tg : Nat) : Int) +
        (if (tsz - blockOffsetBits tg) % tableIdxBits tg = 0 then 1 else 0) := by
  fin_cases h1 <;> fin_cases h2 <;> decide

/-- C1, witness for the amended theorem at granule 4K, tsz 32. -/
theorem C1_start_level_formula_witness :
    (4 * 1024) ∈ supportedTg ∧ 32 ∈ supportedTsz ∧
    startLevel (4 * 1024) 32 =
      3 - (((32 - blockOffsetBits (4 * 1024)) / tableIdxBits (4 * 1024) : Nat) : Int) +
        (if (32 - blockOffsetBits (4 * 1024)) % tableIdxBits (4 * 1024) = 0 then 1 else 0) :=
  ⟨by decide, by decide, C1_start_level_formula (4 * 1024) 32 (by decide) (by decide)⟩

/-- C2: with granule 4K, tsz 32, EL 2, ttb `0x80000000` and the single
Device region `[0x09000000, 0x09001000)`, the start level is 1, exactly
three tables are allocated (levels 1, 2, 3 along the path, at sequential
physical addresses from ttb), and exactly one leaf entry exists: a Device
page at index 0 of the level-3 table. -/
theorem C2_end_to_end_scenario :
    startLevel (4 * 1024) 32 = 1 ∧
    (let cfg : Config := ⟨4 * 1024, 32, 2, 0x80000000⟩
     let st := buildTables cfg [⟨1, "UART", 0x09000000, 0x1000, MEMORY_TYPE.device, 1⟩]
     st.tables.length = 3 ∧
     st.tables.map TableNode.level = [1, 2, 3] ∧
     st.tables.map TableNode.addr = [0x80000000, 0x80001000, 0x80002000] ∧
     (st.tables[0]?).map TableNode.entries = some [(0, Entry.table 1)] ∧
     (st.tables[1]?).map TableNode.entries = some [(72, Entry.table 2)] ∧
     leafEntries st = [(2, 0, ⟨1, "UART", 0x09000000, 0x1000, MEMORY_TYPE.device, 1⟩)]) := by
  decide

/-- C3: when a region reaching the chunk phase has non-zero underflow and
overflow summing to exactly one chunk, the complete-chunk count entering
the loop is the initial count minus two (one for the overflow, one extra),
and neither partial chunk — the underflow chunk at the original start index
nor the overflow chunk at `final_idx` — is among the whole-chunk indices
written by the loop. -/
theorem C3_shared_chunk_extra_decrement (a L c ept : Nat) (hc : 0 < c) (hL : c ≤ L)
    (_hu : underflowOf a c ≠ 0) (ho : overflowOf a L c ≠ 0)
    (hsum : underflowOf a c + overflowOf a L c = c) :
    numChunksFinal a L c = (numChunksInit L c : Int) - 1 - 1 ∧
    startIdxOf a c ept ∉
      loopIndices (startIdxOf a c ept + 1) (numChunksFinal a L c) ∧
    (startIdxOf a c ept + 1) + numChunksInit L c - 1 ∉
      loopIndices (startIdxOf a c ept + 1) (numChunksFinal a L c) := by
  have h1 : numChunksFinal a L c = (numChunksInit L c : Int) - 1 - 1 := by
    simp only [numChunksFinal, if_pos ho, if_pos hsum]
  have hn0 : 1 ≤ numChunksInit L c := (Nat.one_le_div_iff hc).2 hL
  refine ⟨h1, ?_, ?_⟩
  · rw [mem_loopIndices]
    omega
  · rw [mem_loopIndices, h1]
    omega

/-- C3, witness: chunk 4096, region start 1024, length 10240 (underflow
1024, overflow 3072). -/
theorem C3_shared_chunk_extra_decrement_witness :
    (0 < 4096 ∧ 4096 ≤ 10240 ∧ underflowOf 1024 4096 ≠ 0 ∧
      overflowOf 1024 10240 4096 ≠ 0 ∧
      underflowOf 1024 4096 + overflowOf 1024 10240 4096 = 4096) ∧
    (numChunksFinal 1024 10240 4096 = (numChunksInit 10240 4096 : Int) - 1 - 1 ∧
     startIdxOf 1024 4096 512 ∉
       loopIndices (startIdxOf 1024 4096 512 + 1) (numChunksFinal 1024 10240 4096) ∧
     (startIdxOf 1024 4096 512 + 1) + numChunksInit 10240 4096 - 1 ∉
       loopIndices (startIdxOf 1024 4096 512 + 1) (numChunksFinal 1024 10240 4096)) :=
  ⟨⟨by decide, by decide, by decide, by decide, by decide⟩,
    C3_shared_chunk_extra_decrement 1024 10240 4096 512 (by decide) (by decide)
      (by decide) (by decide) (by decide)⟩

set_option maxRecDepth 100000 in
/-- C6, failing input: mapping the single region `[0x180000, 0x480000)`
(granule 4K, tsz 32), the level-2 table (arena index 1, `va_base` 0, chunk
`0x200000`) stores the overflow child table (arena index 3, `va_base`
`0x400000`) at entry index 1, yet re-deriving the index from the stored
address gives `(0x400000 - 0) / 0x200000 = 2 ≠ 1`: the round-trip fails. -/
theorem C6_roundtrip_failing_input :
    let cfg : Config := ⟨4 * 1024, 32, 2, 0x80000000⟩
    let st := buildTables cfg [⟨1, "R", 0x180000, 0x300000, MEMORY_TYPE.rw_data, 1⟩]
    (st.tables[1]?).map TableNode.va_base = some 0 ∧
    (st.tables[1]?).map TableNode.chunk = some 0x200000 ∧
    (st.tables[1]?).map (fun t => dictLookup t.entries 1) = some (some (Entry.table 3)) ∧
    (st.tables[3]?).map TableNode.va_base = some 0x400000 ∧
    (0x400000 - 0) / 0x200000 = 2 := by
  decide

/-- C7: the embedded `_tcr` never returns the packed register value — mmu.py's
`Register.value` computes the OR-fold and drops it, returning `None` — and at
the failing input (granule 64K, tsz 36, EL 2) even the internal fold
(`0x8080b51d`: TG0 encoded 2 via `[4K,16K,64K].index`, PS OR-ed in raw at
bit 0) differs from the claim's value (`0x8081751c`: TG0(64K)=1, PS at
bits [18:16]). -/
theorem C7_tcr_failing_input :
    (∀ cfg : Config, tcr cfg = none) ∧
    tcrVal ⟨64 * 1024, 36, 2, 0x80000000⟩ = 0x8080b51d ∧
    claimedTcr 2 36 (64 * 1024) = 0x8081751c ∧
    tcrVal ⟨64 * 1024, 36, 2, 0x80000000⟩ ≠ claimedTcr 2 36 (64 * 1024) := by
  refine ⟨fun cfg => rfl, ?_, ?_, ?_⟩ <;> decide

/-- C9: a run over a valid configuration and memory map cannot render the
artifacts: `pgtt/codegen.py` reads `mmu.block_template` and
`mmu.page_template`, which `pgtt/mmu.py` does not define, and
`pgtt/__init__.py` prints `codegen.template`, which `pgtt/codegen.py` does
not define — each lookup raises an uncaught `AttributeError` before any
output is produced. -/
theorem C9_pipeline_name_errors :
    ("block_template" ∈ codegenMmuReads ∧
      pyGetAttr mmuModuleAttrs "block_template" = none) ∧
    ("page_template" ∈ codegenMmuReads ∧
      pyGetAttr mmuModuleAttrs "page_template" = none) ∧
    (initCodegenRead = "template" ∧
      pyGetAttr codegenModuleAttrs initCodegenRead = none) := by
  decide

/-- C8: for every memory-attribute class and supported exception level, the
block and page descriptor templates carry the valid bit, the page-vs-block
type bit, AttrIndx 1 for Device and 0 for Normal, Access-Flag 1, Inner
Shareability, and the execute-never bit set for Device and RW-Data but
clear for Code, at bit 53 for EL1 and bit 54 for EL2/EL3 (with the other
position clear). -/
theorem C8_descriptor_templates (mt : MEMORY_TYPE) (el : Nat) (hel : el ∈ supportedEl) :
    (Nat.testBit (block_template mt el) 0 = true ∧
     Nat.testBit (page_template mt el) 0 = true) ∧
    (Nat.testBit (block_template mt el) 1 = false ∧
     Nat.testBit (page_template mt el) 1 = true) ∧
    (block_template mt el / 4 % 8 = (if mt = MEMORY_TYPE.device then 1 else 0) ∧
     page_template mt el / 4 % 8 = (if mt = MEMORY_TYPE.device then 1 else 0)) ∧
    (Nat.testBit (block_template mt el) 10 = true ∧
     Nat.testBit (page_template mt el) 10 = true) ∧
    (block_template mt el / 256 % 4 = 3 ∧ page_template mt el / 256 % 4 = 3) ∧
    (Nat.testBit (block_template mt el) (if el = 1 then 53 else 54) =
        decide (mt ≠ MEMORY_TYPE.code) ∧
     Nat.testBit (page_template mt el) (if el = 1 then 53 else 54) =
        decide (mt ≠ MEMORY_TYPE.code) ∧
     Nat.testBit (block_template mt el) (if el = 1 then 54 else 53) = false ∧
     Nat.testBit (page_template mt el) (if el = 1 then 54 else 53) = false) := by
  fin_cases hel <;> cases mt <;> decide

/-- C8, witness: Device templates at EL2. -/
theorem C8_descriptor_templates_witness :
    2 ∈ supportedEl ∧
    Nat.testBit (block_template MEMORY_TYPE.device 2) 0 = true ∧
    Nat.testBit (page_template MEMORY_TYPE.device 2) 1 = true ∧
    Nat.testBit (block_template MEMORY_TYPE.device 2) 54 = true :=
  ⟨by decide,
    (C8_descriptor_templates MEMORY_TYPE.device 2 (by decide)).1.1,
    (C8_descriptor_templates MEMORY_TYPE.device 2 (by decide)).2.1.2,
    by
      have h := (C8_descriptor_templates MEMORY_TYPE.device 2 (by decide)).2.2.2.2.2.1
      simpa using h⟩

/-- The complete-chunks phase always returns the caller's region object with
its length overwritten by `self.chunk`, and records that write. -/
theorem mapCompletePhase_reg (cfg : Config) (mr : St → Nat → Region → MapResult)
    (st2 : St) (tid : Nat) (region : Region) (t0 : TableNode) (s1 : Nat) :
    (mapCompletePhase cfg mr st2 tid region t0 s1).reg = { region with length := t0.chunk } ∧
    (mapCompletePhase cfg mr st2 tid region t0 s1).phase = some t0.chunk := by
  unfold mapCompletePhase
  dsimp only
  split <;> exact ⟨rfl, rfl⟩

/-- `mapTail` either fails or returns the caller's region with its length
overwritten by `self.chunk`. -/
theorem mapTail_shape (cfg : Config) (mr : St → Nat → Region → MapResult)
    (st : St) (tid : Nat) (region : Region) (t0 : TableNode) (s1 : Nat) :
    (mapTail cfg mr st tid region t0 s1).ok = false ∨
    ((mapTail cfg mr st tid region t0 s1).reg = { region with length := t0.chunk } ∧
     (mapTail cfg mr st tid region t0 s1).phase = some t0.chunk) := by
  unfold mapTail
  dsimp only
  split
  · split
    · exact Or.inl rfl
    · split
      · exact Or.inl rfl
      · split
        · exact Or.inr (mapCompletePhase_reg ..)
        · exact Or.inl rfl
  · exact Or.inr (mapCompletePhase_reg ..)

/-- A non-floating `Table.map` call either fails or returns the caller's
region with its length overwritten by the current level's chunk. -/
theorem mapRegion_shape (cfg : Config) (fuel : Nat) (st : St) (tid : Nat)
    (r : Region) (t : TableNode) (ht : st.tables[tid]? = some t)
    (hn : numChunksInit r.length t.chunk ≠ 0) :
    (mapRegion cfg (fuel + 1) st tid r).ok = false ∨
    ((mapRegion cfg (fuel + 1) st tid r).reg = { r with length := t.chunk } ∧
     (mapRegion cfg (fuel + 1) st tid r).phase = some t.chunk) := by
  rw [mapRegion, ht]
  dsimp only
  repeat' split
  all_goals first
    | exact Or.inl rfl
    | exact mapTail_shape ..

/-- C10: whenever a `Table.map` call reaches the complete-chunks phase
(`num_chunks` positive at the current level), it destructively overwrites
the `length` field of the very `Region` object the caller passed in with
`self.chunk`: the object afterwards is exactly the original with its length
replaced, so it no longer records the region's original length. -/
theorem C10_map_mutates_caller_region (cfg : Config) (fuel : Nat) (st : St) (tid : Nat)
    (r : Region) (t : TableNode) (ht : st.tables[tid]? = some t)
    (hn : numChunksInit r.length t.chunk ≠ 0)
    (hok : (mapRegion cfg (fuel + 1) st tid r).ok = true) :
    (mapRegion cfg (fuel + 1) st tid r).reg = { r with length := t.chunk } ∧
    (mapRegion cfg (fuel + 1) st tid r).phase = some t.chunk := by
  rcases mapRegion_shape cfg fuel st tid r t ht hn with hfail | hgood
  · rw [hok] at hfail
    exact absurd hfail (by decide)
  · exact hgood

/-- C10, witness: a two-granule region mapped into a fresh level-3 table;
the caller's region comes back with its length overwritten by the chunk
(4096), no longer recording the original length 0x3000. -/
theorem C10_map_mutates_caller_region_witness :
    ((⟨[⟨0x80000000, 3, 4096, 0, []⟩], false⟩ : St).tables[0]? =
        some ⟨0x80000000, 3, 4096, 0, []⟩) ∧
    numChunksInit 0x3000 4096 ≠ 0 ∧
    (mapRegion ⟨4096, 32, 2, 0x80000000⟩ 2 ⟨[⟨0x80000000, 3, 4096, 0, []⟩], false⟩ 0
        ⟨1, "D", 0x2000, 0x3000, MEMORY_TYPE.rw_data, 1⟩).ok = true ∧
    (mapRegion ⟨4096, 32, 2, 0x80000000⟩ 2 ⟨[⟨0x80000000, 3, 4096, 0, []⟩], false⟩ 0
        ⟨1, "D", 0x2000, 0x3000, MEMORY_TYPE.rw_data, 1⟩).reg =
      ⟨1, "D", 0x2000, 4096, MEMORY_TYPE.rw_data, 1⟩ ∧
    (mapRegion ⟨4096, 32, 2, 0x80000000⟩ 2 ⟨[⟨0x80000000, 3, 4096, 0, []⟩], false⟩ 0
        ⟨1, "D", 0x2000, 0x3000, MEMORY_TYPE.rw_data, 1⟩).phase = some 4096 :=
  ⟨rfl, by decide, by decide,
    (C10_map_mutates_caller_region ⟨4096, 32, 2, 0x80000000⟩ 1
      ⟨[⟨0x80000000, 3, 4096, 0, []⟩], false⟩ 0
      ⟨1, "D", 0x2000, 0x3000, MEMORY_TYPE.rw_data, 1⟩
      ⟨0x80000000, 3, 4096, 0, []⟩ rfl (by decide) (by decide)).1,
    (C10_map_mutates_caller_region ⟨4096, 32, 2, 0x80000000⟩ 1
      ⟨[⟨0x80000000, 3, 4096, 0, []⟩], false⟩ 0
      ⟨1, "D", 0x2000, 0x3000, MEMORY_TYPE.rw_data, 1⟩
      ⟨0x80000000, 3, 4096, 0, []⟩ rfl (by decide) (by decide)).2⟩

/-- Setting an arena slot back to the node it already holds is a no-op. -/
theorem setTable_self (st : St) (tid : Nat) (t : TableNode)
    (h : st.tables[tid]? = some t) : st.setTable tid t = st := by
  have : st.tables.set tid t = st.tables := by
    apply List.ext_getElem?
    intro j
    by_cases hj : j = tid
    · subst hj
      rw [List.getElem?_set_eq_of_lt t (List.getElem?_eq_some.1 h).1, h]
    · exact List.getElem?_set_ne (fun hh => hj hh.symm)
  simp [St.setTable, this]

/-- A dict assignment at an absent key appends and reports no overwrite. -/
theorem dictSet_absent : ∀ (l : List (Nat × Entry)) (i : Nat) (e : Entry),
    dictContains l i = false → dictSet l i e = (l ++ [(i, e)], false)
  | [], _, _, _ => rfl
  | (k, e') :: rest, i, e, h => by
    simp only [dictContains, dictLookup] at h
    by_cases hk : k = i
    · rw [if_pos hk] at h
      simp at h
    · rw [if_neg hk] at h
      simp only [dictSet, if_neg hk, dictSet_absent rest i e h, List.cons_append]

/-- Dict lookup distributes over append. -/
theorem dictLookup_append : ∀ (l1 l2 : List (Nat × Entry)) (i : Nat),
    dictLookup (l1 ++ l2) i =
      match dictLookup l1 i with
      | some e => some e
      | none => dictLookup l2 i
  | [], _, _ => rfl
  | (k, e') :: rest, l2, i => by
    by_cases hk : k = i
    · simp only [List.cons_append, dictLookup, if_pos hk]
    · simp only [List.cons_append, dictLookup, if_neg hk]
      exact dictLookup_append rest l2 i

/-- The complete-chunks loop with blocks allowed, run over pairwise-fresh
indices, appends one leaf entry per index, never overwrites, and succeeds. -/
theorem mapChunksLoop_blocks (cfg : Config) (mr : St → Nat → Region → MapResult)
    (tid : Nat) (tmpl : Region) (va chunk : Nat) :
    ∀ (ks : List Nat) (st : St) (node : TableNode),
      st.tables[tid]? = some node →
      (∀ k ∈ ks, dictContains node.entries k = false) →
      ks.Nodup →
      mapChunksLoop cfg mr tid true tmpl va chunk st ks =
        ({ st with tables := (st.tables.set tid
            ({ node with entries := (node.entries ++
                ks.map (fun i => (i, Entry.region (tmpl.copyAddr (va + i * chunk))))) })) },
          true)
  | [], st, node, ht, _, _ => by
    simp only [mapChunksLoop, List.map_nil, List.append_nil]
    have : ({ st with tables := st.tables.set tid node } : St) = st := by
      have h2 := setTable_self st tid node ht
      simpa [St.setTable] using h2
    rw [this]
  | i :: rest, st, node, ht, hfresh, hnd => by
    have htid : tid < st.tables.length := (List.getElem?_eq_some.1 ht).1
    have hi : dictContains node.entries i = false := hfresh i (List.mem_cons_self i rest)
    have ht1 : (st.tables.set tid
        ({ node with entries :=
            node.entries ++ [(i, Entry.region (tmpl.copyAddr (va + i * chunk)))] }))[tid]? =
        some ({ node with entries :=
            node.entries ++ [(i, Entry.region (tmpl.copyAddr (va + i * chunk)))] }) :=
      List.getElem?_set_eq_of_lt _ htid
    have hfresh1 : ∀ k ∈ rest,
        dictContains (node.entries ++
          [(i, Entry.region (tmpl.copyAddr (va + i * chunk)))]) k = false := by
      intro k hk
      have hne : i ≠ k := fun hik => (List.nodup_cons.1 hnd).1 (hik ▸ hk)
      have hkf : dictContains node.entries k = false := hfresh k (List.mem_cons_of_mem i hk)
      simp only [dictContains, dictLookup_append]
      simp only [dictContains] at hkf
      cases hlk : dictLookup node.entries k with
      | some v => rw [hlk] at hkf; simp at hkf
      | none => simp [dictLookup, if_neg hne]
    have hIH := mapChunksLoop_blocks cfg mr tid tmpl va chunk rest
      ⟨st.tables.set tid
        ({ node with entries :=
            node.entries ++ [(i, Entry.region (tmpl.copyAddr (va + i * chunk)))] }),
        st.overwrote⟩
      ({ node with entries :=
          node.entries ++ [(i, Entry.region (tmpl.copyAddr (va + i * chunk)))] })
      ht1 hfresh1 (List.nodup_cons.1 hnd).2
    simp only [mapChunksLoop, ht, dictSet_absent node.entries i _ hi, St.setTable,
      Bool.or_false, if_true]
    rw [hIH]
    simp only [List.set_set, List.append_assoc, List.singleton_append, List.map_cons]

/-- Decomposing a shifted index run into head and shifted tail. -/
theorem range_add_map_cons (c N : Nat) (hN : 1 ≤ N) :
    (List.range N).map (fun k => c + k) =
      c :: (List.range (N - 1)).map (fun k => c + 1 + k) := by
  obtain ⟨M, rfl⟩ : ∃ M, N = M + 1 := ⟨N - 1, by omega⟩
  rw [List.range_succ_eq_map]
  simp only [List.map_cons, List.map_map, Nat.add_zero, Nat.add_sub_cancel]
  refine congrArg (c :: ·) (List.map_congr_left fun k _ => ?_)
  simp [Function.comp]
  omega

/-- Insertion sort leaves a shifted index run unchanged. -/
theorem sortKeys_range_add : ∀ (N c : Nat),
    sortKeys ((List.range N).map (fun k => c + k)) = (List.range N).map (fun k => c + k)
  | 0, _ => rfl
  | N + 1, c => by
    rw [range_add_map_cons c (N + 1) (by omega), Nat.add_sub_cancel]
    show insertSorted c (sortKeys ((List.range N).map (fun k => c + 1 + k))) = _
    rw [sortKeys_range_add N (c + 1)]
    cases N with
    | zero => rfl
    | succ M =>
      rw [range_add_map_cons (c + 1) (M + 1) (by omega), Nat.add_sub_cancel]
      simp [insertSorted, show c ≤ c + 1 by omega]

/-- The worklist loop on an empty worklist yields no emissions. -/
theorem mkAsmSteps_nil (look : Nat → Option Entry) (fuel : Nat) :
    mkAsmSteps look fuel [] = some [] := by
  cases fuel <;> rfl

/-- `keys.remove(k)` run over the whole worklist empties it. -/
theorem removeRun_self : ∀ l : List Nat, removeRun l l = some []
  | [] => rfl
  | k :: rest => by
    simp only [removeRun, removeKey, if_pos rfl]
    exact removeRun_self rest

/-- The generator's walk over a table holding exactly one contiguous run
emits a single contiguous-range write loop and nothing else. -/
theorem tableEmissions_run (r : Region) (t : TableNode) (s0 N : Nat) (hN1 : 1 ≤ N) :
    tableEmissions { t with entries := runEntriesOf r t s0 N } =
      some [Emission.blocks s0 (leafRegionAt r t N s0)] := by
  obtain ⟨M, rfl⟩ : ∃ M, N = M + 1 := ⟨N - 1, by omega⟩
  have hkeys : (runEntriesOf r t s0 (M + 1)).map Prod.fst =
      (List.range (M + 1)).map (fun k => s0 + k) := by
    rw [range_add_map_cons s0 (M + 1) (by omega), Nat.add_sub_cancel]
    simp [runEntriesOf, List.map_map, Function.comp]
  unfold tableEmissions
  dsimp only
  rw [hkeys, sortKeys_range_add, List.length_map, List.length_range,
    range_add_map_cons s0 (M + 1) (by omega), Nat.add_sub_cancel]
  show mkAsmSteps (dictLookup (runEntriesOf r t s0 (M + 1))) (M + 1) _ = _
  rw [mkAsmSteps]
  have hlook : dictLookup (runEntriesOf r t s0 (M + 1)) s0 =
      some (Entry.region (leafRegionAt r t (M + 1) s0)) := by
    simp [runEntriesOf, dictLookup]
  rw [hlook]
  have hrun : (List.range (leafRegionAt r t (M + 1) s0).num_contig).map (fun k => s0 + k) =
      s0 :: (List.range M).map (fun k => s0 + 1 + k) := by
    show (List.range (M + 1)).map (fun k => s0 + k) = _
    rw [range_add_map_cons s0 (M + 1) (by omega), Nat.add_sub_cancel]
  dsimp only
  rw [hrun, removeRun_self (s0 :: (List.range M).map (fun k => s0 + 1 + k))]
  dsimp only
  rw [mkAsmSteps_nil]
  rfl

/-- C5: when one `Table.map` call writes `N ≥ 1` consecutive complete-chunk
leaf entries into one (fresh) table, the entry at the first index records
contiguous count `N`, the other `N - 1` entries keep count 1, and the
generator's walk for that table emits exactly one contiguous-range write
loop — the other `N - 1` indices never reach the separate single-entry
write path. -/
theorem C5_contiguous_coalescing (cfg : Config) (fuel : Nat) (st : St) (tid : Nat)
    (r : Region) (t : TableNode) (N : Nat)
    (ht : st.tables[tid]? = some t) (hempty : t.entries = []) (hc : 0 < t.chunk)
    (hb : t.va_base ≤ r.addr ∧
      r.addr + r.length ≤ t.va_base + entriesPerTable cfg.tg * t.chunk)
    (hu : underflowOf r.addr t.chunk = 0) (ho : overflowOf r.addr r.length t.chunk = 0)
    (hN : numChunksInit r.length t.chunk = N) (hN1 : 1 ≤ N)
    (hblocks : blocksAllowedAt cfg t.level = true) :
    (mapRegion cfg (fuel + 1) st tid r).ok = true ∧
    (mapRegion cfg (fuel + 1) st tid r).st.tables[tid]? =
      some { t with entries :=
        (runEntriesOf r t (startIdxOf r.addr t.chunk (entriesPerTable cfg.tg)) N) } ∧
    tableEmissions { t with entries :=
        (runEntriesOf r t (startIdxOf r.addr t.chunk (entriesPerTable cfg.tg)) N) } =
      some [Emission.blocks (startIdxOf r.addr t.chunk (entriesPerTable cfg.tg))
        (leafRegionAt r t N (startIdxOf r.addr t.chunk (entriesPerTable cfg.tg)))] := by
  have htid : tid < st.tables.length := (List.getElem?_eq_some.1 ht).1
  set ept := entriesPerTable cfg.tg with hept
  set s0 := startIdxOf r.addr t.chunk ept with hs0
  set mr : St → Nat → Region → MapResult := fun s i r => mapRegion cfg fuel s i r with hmr
  -- step 1: the call reduces to the complete-chunks phase
  have h1 : mapRegion cfg (fuel + 1) st tid r = mapCompletePhase cfg mr st tid r t s0 := by
    rw [mapRegion, ht]
    dsimp only
    rw [if_neg (not_not_intro hb), if_neg (by rw [hN]; omega),
      if_neg (by rw [hu]; exact fun h => h rfl)]
    rw [mapTail]
    dsimp only
    rw [if_neg (by rw [ho]; exact fun h => h rfl)]
  -- step 2: the loop bound is exactly N
  have hncf : numChunksFinal r.addr r.length t.chunk = (N : Int) := by
    simp only [numChunksFinal, numChunksInit]
    rw [if_neg (by rw [hu, ho]; omega), if_neg (by rw [ho]; exact fun h => h rfl)]
    simp only [numChunksInit] at hN
    exact_mod_cast hN
  have hidxs : loopIndices s0 (numChunksFinal r.addr r.length t.chunk) =
      (List.range N).map (fun k => s0 + k) := by
    rw [hncf]
    rfl
  -- step 3: run the loop over the fresh table
  have hfresh : ∀ k ∈ (List.range N).map (fun k => s0 + k),
      dictContains t.entries k = false := by
    intro k _
    rw [hempty]
    rfl
  have hnd : ((List.range N).map (fun k => s0 + k)).Nodup :=
    (List.nodup_range N).map (fun a b h => by omega)
  have hloop := mapChunksLoop_blocks cfg mr tid ({ r with length := t.chunk })
    t.va_base t.chunk ((List.range N).map (fun k => s0 + k)) st t ht hfresh hnd
  -- step 4: evaluate the phase
  have h2 : mapCompletePhase cfg mr st tid r t s0 =
      ⟨setNumContig
        ({ st with tables := (st.tables.set tid
          ({ t with entries := (t.entries ++
            ((List.range N).map (fun k => s0 + k)).map (fun i =>
              (i, Entry.region (({ r with length := t.chunk } : Region).copyAddr
                (t.va_base + i * t.chunk))))) })) })
        tid s0 N,
        { r with length := t.chunk }, some t.chunk, true⟩ := by
    rw [mapCompletePhase]
    dsimp only
    rw [hblocks, hidxs, hloop]
    dsimp only
    rw [if_pos rfl]
    rw [if_pos (show 0 < ((List.range N).map (fun k => s0 + k)).length by
      simp only [List.length_map, List.length_range]; omega)]
    have hlen : (((List.range N).map (fun k => s0 + k)).length) = N := by simp
    rw [hlen]
  -- step 5: the contiguous-count write produces the run
  have hsetc : setNumContig
      ({ st with tables := (st.tables.set tid
        ({ t with entries := (t.entries ++
          ((List.range N).map (fun k => s0 + k)).map (fun i =>
            (i, Entry.region (({ r with length := t.chunk } : Region).copyAddr
              (t.va_base + i * t.chunk))))) })) })
      tid s0 N =
      { st with tables := (st.tables.set tid
        ({ t with entries := runEntriesOf r t s0 N })) } := by
    obtain ⟨M, rfl⟩ : ∃ M, N = M + 1 := ⟨N - 1, by omega⟩
    have hconsKs : (List.range (M + 1)).map (fun k => s0 + k) =
        s0 :: (List.range M).map (fun k => s0 + 1 + k) := by
      rw [range_add_map_cons s0 (M + 1) (by omega), Nat.add_sub_cancel]
    rw [hconsKs, hempty]
    unfold setNumContig
    rw [List.getElem?_set_eq_of_lt _ htid]
    dsimp only
    simp only [List.nil_append, List.map_cons, dictLookup, if_pos rfl]
    simp only [dictSet, if_pos rfl, List.set_set]
    simp [runEntriesOf, leafRegionAt, Region.copyAddr, List.map_map, Function.comp,
      St.setTable]
    rfl
  refine ⟨?_, ?_, tableEmissions_run r t s0 N hN1⟩
  · rw [h1, h2]
  · rw [h1, h2]
    dsimp only
    rw [hsetc]
    dsimp only
    exact List.getElem?_set_eq_of_lt _ htid

/-- C5, witness: three complete chunks written into a fresh level-3 table;
the first entry carries contiguous count 3 and the generator emits a single
range-write loop. -/
theorem C5_contiguous_coalescing_witness :
    ((⟨[⟨0x80000000, 3, 4096, 0, []⟩], false⟩ : St).tables[0]? =
        some ⟨0x80000000, 3, 4096, 0, []⟩ ∧
      numChunksInit 0x3000 4096 = 3 ∧
      underflowOf 0x2000 4096 = 0 ∧ overflowOf 0x2000 0x3000 4096 = 0) ∧
    ((mapRegion ⟨4096, 32, 2, 0x80000000⟩ 2 ⟨[⟨0x80000000, 3, 4096, 0, []⟩], false⟩ 0
        ⟨1, "D", 0x2000, 0x3000, MEMORY_TYPE.rw_data, 1⟩).ok = true ∧
      (mapRegion ⟨4096, 32, 2, 0x80000000⟩ 2 ⟨[⟨0x80000000, 3, 4096, 0, []⟩], false⟩ 0
        ⟨1, "D", 0x2000, 0x3000, MEMORY_TYPE.rw_data, 1⟩).st.tables[0]? =
        some { (⟨0x80000000, 3, 4096, 0, []⟩ : TableNode) with entries :=
          (runEntriesOf ⟨1, "D", 0x2000, 0x3000, MEMORY_TYPE.rw_data, 1⟩
            ⟨0x80000000, 3, 4096, 0, []⟩
            (startIdxOf 0x2000 4096 (entriesPerTable 4096)) 3) } ∧
      tableEmissions { (⟨0x80000000, 3, 4096, 0, []⟩ : TableNode) with entries :=
          (runEntriesOf ⟨1, "D", 0x2000, 0x3000, MEMORY_TYPE.rw_data, 1⟩
            ⟨0x80000000, 3, 4096, 0, []⟩
            (startIdxOf 0x2000 4096 (entriesPerTable 4096)) 3) } =
        some [Emission.blocks (startIdxOf 0x2000 4096 (entriesPerTable 4096))
          (leafRegionAt ⟨1, "D", 0x2000, 0x3000, MEMORY_TYPE.rw_data, 1⟩
            ⟨0x80000000, 3, 4096, 0, []⟩ 3
            (startIdxOf 0x2000 4096 (entriesPerTable 4096)))]) :=
  ⟨⟨rfl, by decide, by decide, by decide⟩,
    C5_contiguous_coalescing ⟨4096, 32, 2, 0x80000000⟩ 1
      ⟨[⟨0x80000000, 3, 4096, 0, []⟩], false⟩ 0
      ⟨1, "D", 0x2000, 0x3000, MEMORY_TYPE.rw_data, 1⟩
      ⟨0x80000000, 3, 4096, 0, []⟩ 3 rfl rfl (by decide) (by decide) (by decide)
      (by decide) (by decide) (by decide) (by decide)⟩

/-! ### Infrastructure for the no-double-assignment proof (claim C4) -/

/-- An occupied index lies within the arena. -/
theorem occB_lt {st : St} {t i : Nat} (h : occB st t i = true) : t < st.tables.length := by
  unfold occB at h
  cases ht : st.tables[t]? with
  | none => simp [ht] at h
  | some n => exact (List.getElem?_eq_some.1 ht).1

/-- Geometry equality transfers level, chunk and `va_base`. -/
theorem geom_eq_parts {st st' : St} {t : Nat} (h : geomOf st' t = geomOf st t) :
    levelOf st' t = levelOf st t ∧ chunkOf st' t = chunkOf st t ∧ vaOf st' t = vaOf st t := by
  unfold geomOf at h
  unfold levelOf chunkOf vaOf
  cases h1 : st.tables[t]? <;> cases h2 : st'.tables[t]? <;>
    rw [h1, h2] at h <;> simp only [h1, h2] <;> simp_all

/-- `MapPost` is reflexive on well-formed states. -/
theorem MapPost_refl (cfg : Config) (st : St) (lvl lo hi : Nat) (hwf : WF cfg st) :
    MapPost cfg st st lvl lo hi :=
  ⟨rfl, le_refl _, fun _ _ => rfl, hwf, fun _ _ h => Or.inl h⟩

/-- Weakening a `MapPost`: a deeper level and a smaller interval imply the
post for a shallower level and a wider interval. -/
theorem MapPost_mono {cfg : Config} {s s' : St} {lvl' lo' hi' lvl lo hi : Nat}
    (h : MapPost cfg s s' lvl' lo' hi')
    (h1 : lvl ≤ lvl') (h2 : lo ≤ lo') (h3 : hi' ≤ hi) :
    MapPost cfg s s' lvl lo hi := by
  obtain ⟨f, sz, g, w, o⟩ := h
  refine ⟨f, sz, g, w, fun t i hocc => ?_⟩
  rcases o t i hocc with h' | ⟨hm, hl⟩
  · exact Or.inl h'
  · refine Or.inr ⟨?_, le_trans h1 hl⟩
    unfold ivMeets at hm ⊢
    omega

/-- `MapPost` composes. -/
theorem MapPost_trans {cfg : Config} {st st1 st2 : St} {lvl lo hi : Nat}
    (h1 : MapPost cfg st st1 lvl lo hi) (h2 : MapPost cfg st1 st2 lvl lo hi) :
    MapPost cfg st st2 lvl lo hi := by
  obtain ⟨f1, s1, g1, w1, o1⟩ := h1
  obtain ⟨f2, s2, g2, w2, o2⟩ := h2
  refine ⟨f2.trans f1, s1.trans s2, ?_, w2, ?_⟩
  · intro t ht
    rw [g2 t (lt_of_lt_of_le ht s1), g1 t ht]
  · intro t i hocc
    rcases o2 t i hocc with h | ⟨hm, hl2⟩
    · rcases o1 t i h with h' | ⟨hm', hl1⟩
      · exact Or.inl h'
      · have htlt : t < st1.tables.length := occB_lt h
        obtain ⟨hle, hch, hva⟩ := geom_eq_parts (g2 t htlt)
        have hclo : chunkLo st2 t i = chunkLo st1 t i := by
          unfold chunkLo
          rw [hva, hch]
        have hchi : chunkHi st2 t i = chunkHi st1 t i := by
          unfold chunkHi
          rw [hclo, hch]
        refine Or.inr ⟨?_, ?_⟩
        · rw [hclo, hchi]
          exact hm'
        · rw [hle]
          exact hl1
    · exact Or.inr ⟨hm, hl2⟩

/-- Raising the level threshold weakens `OccP`. -/
theorem OccP_mono {st : St} {lvl lvl' lo hi : Nat} (h : OccP st lvl lo hi)
    (hl : lvl ≤ lvl') : OccP st lvl' lo hi :=
  fun t i hocc hlev => h t i hocc (le_trans hl hlev)

/-- Facts about the supported granule sizes. -/
theorem supported_tg_facts {tg : Nat} (h : tg ∈ supportedTg) :
    0 < tg ∧ entriesPerTable tg = 2 ^ tableIdxBits tg ∧ 2 ≤ entriesPerTable tg := by
  fin_cases h <;> decide

/-- Chunks computed by the constructor's formula are positive for supported
granules. -/
theorem chunk_formula_pos {tg : Nat} (h : tg ∈ supportedTg) (k : Nat) :
    0 < tg <<< k := by
  rw [Nat.shiftLeft_eq]
  exact Nat.mul_pos (supported_tg_facts h).1 (Nat.pos_pow_of_pos k (by omega))

/-- A parent's chunk is `entries_per_table` child chunks. -/
theorem chunk_formula_succ {tg : Nat} (h : tg ∈ supportedTg) (l : Nat) (hl : l ≤ 2) :
    tg <<< ((3 - l) * tableIdxBits tg) =
      (tg <<< ((3 - (l + 1)) * tableIdxBits tg)) * entriesPerTable tg := by
  obtain ⟨-, hpow, -⟩ := supported_tg_facts h
  rw [hpow, Nat.shiftLeft_eq, Nat.shiftLeft_eq, Nat.mul_assoc, ← pow_add]
  have h3 : (3 - l) * tableIdxBits tg =
      (3 - (l + 1)) * tableIdxBits tg + tableIdxBits tg := by
    have : 3 - l = (3 - (l + 1)) + 1 := by omega
    rw [this, Nat.succ_mul]
  rw [h3]

/-- Lookup after a dict assignment. -/
theorem dictSet_lookup : ∀ (l : List (Nat × Entry)) (i : Nat) (e : Entry) (k : Nat),
    dictLookup (dictSet l i e).1 k = if i = k then some e else dictLookup l k
  | [], i, e, k => by
    by_cases hik : i = k <;> simp [dictSet, dictLookup, hik]
  | (k', e') :: rest, i, e, k => by
    by_cases hk'i : k' = i
    · subst hk'i
      by_cases hik : k' = k <;> simp [dictSet, dictLookup, hik]
    · simp only [dictSet, if_neg hk'i]
      by_cases hk'k : k' = k
      · subst hk'k
        have hik : ¬ i = k' := fun h => hk'i h.symm
        simp [dictLookup, hik]
      · simp only [dictLookup, if_neg hk'k]
        exact dictSet_lookup rest i e k

/-- Lookup in an arena extended by one node and updated at `tid`. -/
theorem lookup_alloc_set (st : List TableNode) (tid : Nat) (t' nn : TableNode)
    (htid : tid < st.length) (x : Nat) :
    ((st ++ [nn]).set tid t')[x]? =
      if x = tid then some t'
      else if x = st.length then some nn
      else st[x]? := by
  by_cases hx : x = tid
  · subst hx
    rw [if_pos rfl]
    exact List.getElem?_set_eq_of_lt _ (by simp; omega)
  · rw [if_neg hx, List.getElem?_set_ne (fun h => hx h.symm)]
    by_cases hxl : x = st.length
    · subst hxl
      rw [if_pos rfl, List.getElem?_append, if_neg (by omega)]
      simp
    · rw [if_neg hxl]
      by_cases hlt : x < st.length
      · rw [List.getElem?_append, if_pos hlt]
      · rw [List.getElem?_append, if_neg hlt]
        have h1 : x - st.length ≥ 1 := by omega
        have h2 : st[x]? = none := List.getElem?_eq_none (by omega)
        rw [h2]
        match hd : x - st.length with
        | 0 => omega
        | d + 1 => simp

/-- Postcondition of the allocating branch of `prepare_next`, stated over
the explicit successor state: flag untouched, arena grown by one, geometry
preserved, well-formedness kept, the only new occupancy is `(tid, idx)`,
and that slot is occupied. -/
theorem prepareNext_alloc_post (cfg : Config) (st : St) (tid idx : Nat)
    (t nn t' : TableNode) (st2 : St) (vb : Nat)
    (ht : st.tables[tid]? = some t)
    (hsupp : cfg.tg ∈ supportedTg) (hwf : WF cfg st)
    (hcont : dictContains t.entries idx = false)
    (hlev : t.level + 1 ≤ 3) (hdvb : t.chunk ∣ vb)
    (hnnl : nn.level = t.level + 1)
    (hnnc : nn.chunk = cfg.tg <<< ((3 - (t.level + 1)) * tableIdxBits cfg.tg))
    (hnnv : nn.va_base = vb) (hnne : nn.entries = [])
    (ht' : t' = { t with entries := (t.entries ++ [(idx, Entry.table st.tables.length)]) })
    (hst2 : st2 = { tables := ((st.tables ++ [nn]).set tid t'),
                    overwrote := (st.overwrote || false) }) :
    st2.overwrote = st.overwrote ∧
    st.tables.length ≤ st2.tables.length ∧
    (∀ x, x < st.tables.length → geomOf st2 x = geomOf st x) ∧
    WF cfg st2 ∧
    (∀ x i, occB st2 x i = true → occB st x i = true ∨ (x = tid ∧ i = idx)) ∧
    occB st2 tid idx = true := by
  have htid : tid < st.tables.length := (List.getElem?_eq_some.1 ht).1
  subst hst2
  have hlook : ∀ x, ((st.tables ++ [nn]).set tid t')[x]? =
      if x = tid then some t'
      else if x = st.tables.length then some nn
      else st.tables[x]? := lookup_alloc_set st.tables tid t' nn htid
  have hlen : ((st.tables ++ [nn]).set tid t').length = st.tables.length + 1 := by
    simp
  have hgeom : ∀ x, x < st.tables.length →
      geomOf ⟨(st.tables ++ [nn]).set tid t', st.overwrote || false⟩ x = geomOf st x := by
    intro x hx
    unfold geomOf
    dsimp only
    rw [hlook x]
    by_cases hxt : x = tid
    · subst hxt
      rw [if_pos rfl, ht, ht']
      rfl
    · rw [if_neg hxt, if_neg (by omega)]
  have hlevelOf : ∀ x, x < st.tables.length →
      levelOf ⟨(st.tables ++ [nn]).set tid t', st.overwrote || false⟩ x = levelOf st x :=
    fun x hx => (geom_eq_parts (hgeom x hx)).1
  have hlevnn : levelOf ⟨(st.tables ++ [nn]).set tid t', st.overwrote || false⟩
      st.tables.length = t.level + 1 := by
    unfold levelOf
    dsimp only
    rw [hlook st.tables.length, if_neg (by omega), if_pos rfl]
    exact hnnl
  refine ⟨by simp, by simp, hgeom, ⟨?_, ?_⟩, ?_, ?_⟩
  · -- WF first clause
    intro x n hx
    dsimp only at hx
    rw [hlook x] at hx
    by_cases hxt : x = tid
    · rw [if_pos hxt] at hx
      obtain rfl : t' = n := Option.some.inj hx
      rw [ht']
      exact hwf.1 tid t ht
    · rw [if_neg hxt] at hx
      by_cases hxl : x = st.tables.length
      · rw [if_pos hxl] at hx
        obtain rfl : nn = n := Option.some.inj hx
        refine ⟨by omega, by rw [hnnc, hnnl], ?_⟩
        have hchf : t.chunk = cfg.tg <<< ((3 - t.level) * tableIdxBits cfg.tg) :=
          (hwf.1 tid t ht).2.1
        have hsucc := chunk_formula_succ hsupp t.level (by omega)
        rw [← hchf] at hsucc
        have hprod : entriesPerTable cfg.tg * nn.chunk = t.chunk := by
          rw [hnnc, hsucc]
          ring
        rw [hprod, hnnv]
        exact hdvb
      · rw [if_neg hxl] at hx
        exact hwf.1 x n hx
  · -- WF second clause: child links
    intro x n i c hx hlk
    dsimp only at hx
    rw [hlook x] at hx
    by_cases hxt : x = tid
    · rw [if_pos hxt] at hx
      obtain rfl : t' = n := Option.some.inj hx
      have ht'l : t'.level = t.level := by rw [ht']
      have hlk2 : dictLookup (t.entries ++ [(idx, Entry.table st.tables.length)]) i =
          some (Entry.table c) := by
        rw [ht'] at hlk
        exact hlk
      rw [dictLookup_append] at hlk2
      cases hold : dictLookup t.entries i with
      | some e =>
        rw [hold] at hlk2
        dsimp only at hlk2
        obtain rfl : e = Entry.table c := Option.some.inj hlk2
        obtain ⟨hc1, hc2⟩ := hwf.2 tid t i c ht hold
        refine ⟨?_, ?_⟩
        · show c < ((st.tables ++ [nn]).set tid t').length
          rw [hlen]
          omega
        · rw [hlevelOf c hc1, hc2, ht'l]
      | none =>
        rw [hold] at hlk2
        dsimp only [dictLookup] at hlk2
        by_cases hik : idx = i
        · rw [if_pos hik] at hlk2
          obtain he : Entry.table st.tables.length = Entry.table c :=
            Option.some.inj hlk2
          obtain rfl : st.tables.length = c := by injection he
          refine ⟨?_, ?_⟩
          · show st.tables.length < ((st.tables ++ [nn]).set tid t').length
            rw [hlen]
            omega
          · rw [hlevnn, ht'l]
        · rw [if_neg hik] at hlk2
          exact absurd hlk2 (by simp)
    · rw [if_neg hxt] at hx
      by_cases hxl : x = st.tables.length
      · rw [if_pos hxl] at hx
        obtain rfl : nn = n := Option.some.inj hx
        rw [hnne] at hlk
        exact absurd hlk (by simp [dictLookup])
      · rw [if_neg hxl] at hx
        obtain ⟨hc1, hc2⟩ := hwf.2 x n i c hx hlk
        refine ⟨?_, ?_⟩
        · show c < ((st.tables ++ [nn]).set tid t').length
          rw [hlen]
          omega
        · rw [hlevelOf c hc1, hc2]
  · -- occupancy characterization
    intro x i hocc
    unfold occB at hocc ⊢
    dsimp only at hocc
    rw [hlook x] at hocc
    by_cases hxt : x = tid
    · subst hxt
      rw [if_pos rfl] at hocc
      rw [ht]
      rw [ht'] at hocc
      dsimp only [dictContains] at hocc ⊢
      rw [dictLookup_append] at hocc
      cases hold : dictLookup t.entries i with
      | some e =>
        rw [hold] at hocc
        exact Or.inl rfl
      | none =>
        rw [hold] at hocc
        dsimp only [dictLookup] at hocc
        by_cases hik : idx = i
        · exact Or.inr ⟨rfl, hik.symm⟩
        · rw [if_neg hik] at hocc
          exact absurd hocc (by simp)
    · rw [if_neg hxt] at hocc
      by_cases hxl : x = st.tables.length
      · rw [if_pos hxl] at hocc
        dsimp only at hocc
        rw [hnne] at hocc
        exact absurd hocc (by simp [dictContains, dictLookup])
      · rw [if_neg hxl] at hocc
        exact Or.inl hocc
  · -- (tid, idx) is occupied afterwards
    unfold occB
    dsimp only
    rw [hlook tid, if_pos rfl, ht']
    dsimp only [dictContains]
    rw [dictLookup_append]
    have hl2 : dictLookup t.entries idx = none := by
      rw [dictContains] at hcont
      cases hl3 : dictLookup t.entries idx with
      | none => rfl
      | some e =>
        rw [hl3] at hcont
        simp at hcont
    rw [hl2]
    simp [dictLookup]

/-- Full postcondition of a successful `prepare_next`: the flag is
untouched, the arena only grows, geometry is preserved, well-formedness is
kept, the only possibly-new occupancy is `(tid, idx)`, and that slot is
occupied afterwards. -/
theorem prepareNext_post {cfg : Config} {st : St} {tid idx : Nat} {va : Option Nat}
    {t : TableNode} (ht : st.tables[tid]? = some t)
    (hsupp : cfg.tg ∈ supportedTg) (hwf : WF cfg st) {st' : St}
    (hres : prepareNext cfg st tid idx va = some st')
    (hva : ∀ v, va = some v → t.chunk ∣ v) :
    st'.overwrote = st.overwrote ∧
    st.tables.length ≤ st'.tables.length ∧
    (∀ x, x < st.tables.length → geomOf st' x = geomOf st x) ∧
    WF cfg st' ∧
    (∀ x i, occB st' x i = true → occB st x i = true ∨ (x = tid ∧ i = idx)) ∧
    occB st' tid idx = true := by
  unfold prepareNext at hres
  rw [ht] at hres
  dsimp only at hres
  by_cases hcont : dictContains t.entries idx = true
  · rw [if_pos hcont] at hres
    obtain rfl : st = st' := Option.some.inj hres
    refine ⟨rfl, le_refl _, fun _ _ => rfl, hwf, fun _ _ h => Or.inl h, ?_⟩
    unfold occB
    rw [ht]
    exact hcont
  · rw [if_neg hcont] at hres
    by_cases hlev : t.level + 1 > 3
    · rw [if_pos hlev] at hres
      exact absurd hres (by simp)
    · rw [if_neg hlev] at hres
      cases va with
      | some v =>
        dsimp only at hres
        unfold allocTable at hres
        dsimp only at hres
        rw [List.getElem?_append, if_pos (List.getElem?_eq_some.1 ht).1, ht] at hres
        dsimp only at hres
        rw [dictSet_absent t.entries idx _ (by simpa using hcont)] at hres
        dsimp only [St.setTable] at hres
        obtain rfl := Option.some.inj hres
        exact prepareNext_alloc_post cfg st tid idx t _ _ _ v ht hsupp hwf
          (by simpa using hcont) (by omega) (hva v rfl) rfl rfl rfl rfl rfl rfl
      | none =>
        dsimp only at hres
        unfold allocTable at hres
        dsimp only at hres
        rw [List.getElem?_append, if_pos (List.getElem?_eq_some.1 ht).1, ht] at hres
        dsimp only at hres
        rw [dictSet_absent t.entries idx _ (by simpa using hcont)] at hres
        dsimp only [St.setTable] at hres
        obtain rfl := Option.some.inj hres
        have hdva : entriesPerTable cfg.tg * t.chunk ∣ t.va_base :=
          (hwf.1 tid t ht).2.2
        have hdvb : t.chunk ∣ t.va_base + idx * t.chunk :=
          Nat.dvd_add (dvd_trans (dvd_mul_left t.chunk (entriesPerTable cfg.tg)) hdva)
            (dvd_mul_left t.chunk idx)
        exact prepareNext_alloc_post cfg st tid idx t _ _ _ _ ht hsupp hwf
          (by simpa using hcont) (by omega) hdvb rfl rfl rfl rfl rfl rfl

/-- Two grid windows of width `c` that overlap have the same index. -/
theorem grid_index_eq {i j c : Nat} (_hc : 0 < c)
    (h1 : j * c < i * c + c) (h2 : i * c < j * c + c) : i = j := by
  have h1' : j * c < (i + 1) * c := by rw [Nat.succ_mul]; omega
  have h2' : i * c < (j + 1) * c := by rw [Nat.succ_mul]; omega
  have hj : j < i + 1 := Nat.lt_of_mul_lt_mul_right h1'
  have hi : i < j + 1 := Nat.lt_of_mul_lt_mul_right h2'
  omega

/-- Inverting a successful `childEntry`. -/
theorem childEntry_some {st : St} {tid idx ctid : Nat}
    (h : childEntry st tid idx = some ctid) :
    ∃ n, st.tables[tid]? = some n ∧ dictLookup n.entries idx = some (Entry.table ctid) := by
  unfold childEntry at h
  cases ht : st.tables[tid]? with
  | none => rw [ht] at h; exact absurd h (by simp)
  | some n =>
    rw [ht] at h
    dsimp only at h
    cases hl : dictLookup n.entries idx with
    | none => rw [hl] at h; exact absurd h (by simp)
    | some e =>
      rw [hl] at h
      cases e with
      | region r => exact absurd h (by simp)
      | table c =>
        dsimp only at h
        obtain rfl : c = ctid := Option.some.inj h
        exact ⟨n, rfl, hl⟩

/-- Geometry preservation at an index that held a node gives a node with
the same immutable fields. -/
theorem geom_some_parts {st st' : St} {tid : Nat} {t : TableNode}
    (h : geomOf st' tid = geomOf st tid) (ht : st.tables[tid]? = some t) :
    ∃ t', st'.tables[tid]? = some t' ∧ t'.addr = t.addr ∧ t'.level = t.level ∧
      t'.chunk = t.chunk ∧ t'.va_base = t.va_base := by
  cases ht' : st'.tables[tid]? with
  | none =>
    exfalso
    unfold geomOf at h
    rw [ht, ht'] at h
    simp at h
  | some t' =>
    unfold geomOf at h
    rw [ht, ht'] at h
    simp at h
    exact ⟨t', rfl, by omega, by omega, by omega, by omega⟩

/-- The chunk window and level of an entry, in terms of the node's fields. -/
theorem chunk_window_at {st : St} {tid : Nat} {t1 : TableNode}
    (ht : st.tables[tid]? = some t1) (i : Nat) :
    chunkLo st tid i = t1.va_base + i * t1.chunk ∧
    chunkHi st tid i = t1.va_base + i * t1.chunk + t1.chunk ∧
    levelOf st tid = t1.level := by
  refine ⟨?_, ?_, ?_⟩
  · unfold chunkLo vaOf chunkOf
    rw [ht]
  · unfold chunkHi chunkLo vaOf chunkOf
    rw [ht]
  · unfold levelOf
    rw [ht]

/-- Chunk windows and levels transfer along geometry equality. -/
theorem chunk_eq_of_geom {st st' : St} {x : Nat}
    (h : geomOf st' x = geomOf st x) (k : Nat) :
    chunkLo st' x k = chunkLo st x k ∧ chunkHi st' x k = chunkHi st x k ∧
    levelOf st' x = levelOf st x := by
  obtain ⟨hl, hc, hv⟩ := geom_eq_parts h
  refine ⟨?_, ?_, hl⟩
  · unfold chunkLo
    rw [hv, hc]
  · unfold chunkHi chunkLo
    rw [hv, hc]

/-- A step that adds at most the single occupancy `(tid, i)` whose chunk
meets `[lo, hi)` at level `lvl` or deeper satisfies `MapPost`. -/
theorem MapPost_of_single {cfg : Config} {st st2 : St} {lvl lo hi tid i : Nat}
    (hflag : st2.overwrote = st.overwrote)
    (hlen : st.tables.length ≤ st2.tables.length)
    (hgeom : ∀ x, x < st.tables.length → geomOf st2 x = geomOf st x)
    (hwf2 : WF cfg st2)
    (hocc : ∀ x k, occB st2 x k = true → occB st x k = true ∨ (x = tid ∧ k = i))
    (hmeet : ivMeets (chunkLo st2 tid i) (chunkHi st2 tid i) lo hi)
    (hlev : lvl ≤ levelOf st2 tid) :
    MapPost cfg st st2 lvl lo hi := by
  refine ⟨hflag, hlen, hgeom, hwf2, ?_⟩
  intro x k h
  rcases hocc x k h with h' | ⟨rfl, rfl⟩
  · exact Or.inl h'
  · exact Or.inr ⟨hmeet, hlev⟩

/-- Postcondition of the in-place block/page write of the complete-chunks
loop (line 154 of `pgtt/table.py`), at a previously free index. -/
theorem setRegion_post (cfg : Config) (st : St) (tid i : Nat) (t t' : TableNode)
    (r : Region) (st2 : St)
    (ht : st.tables[tid]? = some t) (hwf : WF cfg st)
    (hcont : dictContains t.entries i = false)
    (ht' : t' = { t with entries := (t.entries ++ [(i, Entry.region r)]) })
    (hst2 : st2 = { tables := (st.tables.set tid t'),
                    overwrote := (st.overwrote || false) }) :
    st2.overwrote = st.overwrote ∧
    st.tables.length ≤ st2.tables.length ∧
    (∀ x, x < st.tables.length → geomOf st2 x = geomOf st x) ∧
    WF cfg st2 ∧
    (∀ x k, occB st2 x k = true → occB st x k = true ∨ (x = tid ∧ k = i)) ∧
    occB st2 tid i = true := by
  have htid : tid < st.tables.length := (List.getElem?_eq_some.1 ht).1
  subst hst2
  have hlook : ∀ x, (st.tables.set tid t')[x]? =
      if x = tid then some t' else st.tables[x]? := by
    intro x
    by_cases hx : x = tid
    · subst hx
      rw [if_pos rfl]
      exact List.getElem?_set_eq_of_lt _ htid
    · rw [if_neg hx, List.getElem?_set_ne (fun h => hx h.symm)]
  have hlen : (st.tables.set tid t').length = st.tables.length := by simp
  have hgeom : ∀ x, x < st.tables.length →
      geomOf ⟨st.tables.set tid t', st.overwrote || false⟩ x = geomOf st x := by
    intro x hx
    unfold geomOf
    dsimp only
    rw [hlook x]
    by_cases hxt : x = tid
    · subst hxt
      rw [if_pos rfl, ht, ht']
      rfl
    · rw [if_neg hxt]
  have hlevelOf : ∀ x,
      levelOf ⟨st.tables.set tid t', st.overwrote || false⟩ x = levelOf st x := by
    intro x
    unfold levelOf
    dsimp only
    rw [hlook x]
    by_cases hxt : x = tid
    · subst hxt
      rw [if_pos rfl, ht, ht']
    · rw [if_neg hxt]
  refine ⟨by simp, by simp, hgeom, ⟨?_, ?_⟩, ?_, ?_⟩
  · intro x n hx
    dsimp only at hx
    rw [hlook x] at hx
    by_cases hxt : x = tid
    · rw [if_pos hxt] at hx
      obtain rfl : t' = n := Option.some.inj hx
      rw [ht']
      exact hwf.1 tid t ht
    · rw [if_neg hxt] at hx
      exact hwf.1 x n hx
  · intro x n k cc hx hlk
    dsimp only at hx
    rw [hlook x] at hx
    by_cases hxt : x = tid
    · rw [if_pos hxt] at hx
      obtain rfl : t' = n := Option.some.inj hx
      have hlk2 : dictLookup (t.entries ++ [(i, Entry.region r)]) k =
          some (Entry.table cc) := by
        rw [ht'] at hlk
        exact hlk
      rw [dictLookup_append] at hlk2
      cases hold : dictLookup t.entries k with
      | some e =>
        rw [hold] at hlk2
        dsimp only at hlk2
        obtain rfl : e = Entry.table cc := Option.some.inj hlk2
        obtain ⟨hc1, hc2⟩ := hwf.2 tid t k cc ht hold
        refine ⟨by rw [hlen]; omega, ?_⟩
        rw [hlevelOf cc, hc2, ht']
      | none =>
        rw [hold] at hlk2
        dsimp only [dictLookup] at hlk2
        by_cases hik : i = k
        · rw [if_pos hik] at hlk2
          exact absurd hlk2 (by simp)
        · rw [if_neg hik] at hlk2
          exact absurd hlk2 (by simp)
    · rw [if_neg hxt] at hx
      obtain ⟨hc1, hc2⟩ := hwf.2 x n k cc hx hlk
      refine ⟨by rw [hlen]; omega, ?_⟩
      rw [hlevelOf cc, hc2]
  · intro x k hocc
    unfold occB at hocc ⊢
    dsimp only at hocc
    rw [hlook x] at hocc
    by_cases hxt : x = tid
    · subst hxt
      rw [if_pos rfl] at hocc
      rw [ht]
      dsimp only at hocc
      have hocc2 : dictContains (t.entries ++ [(i, Entry.region r)]) k = true := by
        rw [ht'] at hocc
        exact hocc
      rw [dictContains, dictLookup_append] at hocc2
      cases hold : dictLookup t.entries k with
      | some e =>
        refine Or.inl ?_
        show dictContains t.entries k = true
        unfold dictContains
        rw [hold]
        rfl
      | none =>
        rw [hold] at hocc2
        dsimp only [dictLookup] at hocc2
        by_cases hik : i = k
        · exact Or.inr ⟨rfl, hik.symm⟩
        · rw [if_neg hik] at hocc2
          exact absurd hocc2 (by simp)
    · rw [if_neg hxt] at hocc
      exact Or.inl hocc
  · unfold occB
    dsimp only
    rw [hlook tid, if_pos rfl, ht']
    dsimp only [dictContains]
    rw [dictLookup_append]
    have hl2 : dictLookup t.entries i = none := by
      rw [dictContains] at hcont
      cases hl3 : dictLookup t.entries i with
      | none => rfl
      | some e =>
        rw [hl3] at hcont
        simp at hcont
    rw [hl2]
    simp [dictLookup]

/-- Postcondition of the complete-chunks loop: provided every loop window
lies inside `[lo, hi)` and no occupied chunk at this table's level or deeper
sits inside any loop window, every path (including failing ones) satisfies
`MapPost` for `[lo, hi)` — in particular the double-assignment flag is
untouched. -/
theorem mapChunksLoop_post (cfg : Config) (mr : St → Nat → Region → MapResult)
    (hsupp : cfg.tg ∈ supportedTg) (hmr : MRCallbackOK cfg mr)
    (tid : Nat) (blocksOk : Bool) (template : Region) (va c : Nat)
    (lvl lo hi : Nat) (hlc : template.length = c) :
    ∀ (idxs : List Nat) (st : St) (t1 : TableNode),
      WF cfg st →
      st.tables[tid]? = some t1 →
      t1.level = lvl → t1.chunk = c → t1.va_base = va →
      idxs.Nodup →
      (∀ i ∈ idxs, lo ≤ va + i * c ∧ va + i * c + c ≤ hi) →
      (∀ x k, occB st x k = true → lvl ≤ levelOf st x →
        ∀ j ∈ idxs, ¬ ivSub (chunkLo st x k) (chunkHi st x k)
          (va + j * c) (va + j * c + c)) →
      MapPost cfg st (mapChunksLoop cfg mr tid blocksOk template va c st idxs).1 lvl lo hi
  | [], st, t1, hwf, ht1, _, _, _, _, _, _ => MapPost_refl cfg st lvl lo hi hwf
  | i :: rest, st, t1, hwf, ht1, hl1, hc1, hv1, hnd, hwin, hocc => by
    have htid : tid < st.tables.length := (List.getElem?_eq_some.1 ht1).1
    have hc0 : 0 < c := by
      rw [← hc1, (hwf.1 tid t1 ht1).2.1]
      exact chunk_formula_pos hsupp _
    obtain ⟨hwl, hwh⟩ := hwin i (List.mem_cons_self i rest)
    have hinotin : i ∉ rest := (List.nodup_cons.1 hnd).1
    simp only [mapChunksLoop]
    by_cases hb : blocksOk = true
    · rw [if_pos hb, ht1]
      dsimp only
      have hcont : dictContains t1.entries i = false := by
        cases hcc : dictContains t1.entries i with
        | false => rfl
        | true =>
          exfalso
          have hoccb : occB st tid i = true := by
            unfold occB
            rw [ht1]
            exact hcc
          obtain ⟨hwlo, hwhi, hwlv⟩ := chunk_window_at ht1 i
          refine hocc tid i hoccb ?_ i (List.mem_cons_self i rest) ?_
          · rw [hwlv, hl1]
          · rw [hwlo, hwhi, hc1, hv1]
            exact ⟨le_refl _, le_refl _⟩
      rw [dictSet_absent t1.entries i _ hcont]
      dsimp only [St.setTable]
      obtain ⟨hf, hle, hg, hwf2, hoc, -⟩ :=
        setRegion_post cfg st tid i t1 _ (template.copyAddr (va + i * c)) _
          ht1 hwf hcont rfl rfl
      obtain ⟨t1x, ht1x, -, hlx, hcx, hvx⟩ := geom_some_parts (hg tid htid) ht1
      obtain ⟨hclw, hchw, hlvw⟩ := chunk_window_at ht1x i
      have hleg1 : MapPost cfg st
          ⟨st.tables.set tid
            { t1 with entries :=
              (t1.entries ++ [(i, Entry.region (template.copyAddr (va + i * c)))]) },
            st.overwrote || false⟩ lvl lo hi := by
        refine MapPost_of_single hf hle hg hwf2 hoc ?_ ?_
        · rw [hclw, hchw, hvx, hcx, hv1, hc1]
          exact ⟨by omega, by omega⟩
        · rw [hlvw, hlx, hl1]
      refine MapPost_trans hleg1
        (mapChunksLoop_post cfg mr hsupp hmr tid blocksOk template va c lvl lo hi hlc
          rest _ t1x hwf2 ht1x (by rw [hlx, hl1]) (by rw [hcx, hc1]) (by rw [hvx, hv1])
          (List.nodup_cons.1 hnd).2
          (fun j hj => hwin j (List.mem_cons_of_mem _ hj)) ?_)
      intro x k hoccx hlevx j hj hsub
      rcases hoc x k hoccx with hold | ⟨hxe, hke⟩
      · have hxlt : x < st.tables.length := occB_lt hold
        obtain ⟨hcl, hch, hlv⟩ := chunk_eq_of_geom (hg x hxlt) k
        exact hocc x k hold (by rw [← hlv]; exact hlevx) j (List.mem_cons_of_mem _ hj)
          (by rw [← hcl, ← hch]; exact hsub)
      · rw [hxe, hke] at hsub
        rw [hclw, hchw, hvx, hcx, hv1, hc1] at hsub
        unfold ivSub at hsub
        have hij : i = j := by
          refine grid_index_eq hc0 ?_ ?_ <;> omega
        exact hinotin (hij ▸ hj)
    · rw [if_neg hb]
      cases hpn : prepareNext cfg st tid i none with
      | none =>
        dsimp only
        exact MapPost_refl cfg st lvl lo hi hwf
      | some st1 =>
        dsimp only
        obtain ⟨hf, hle, hg, hwf1, hoc, -⟩ :=
          prepareNext_post ht1 hsupp hwf hpn (fun v hv => Option.noConfusion hv)
        obtain ⟨t1', ht1', -, hl1', hc1', hv1'⟩ := geom_some_parts (hg tid htid) ht1
        obtain ⟨hclw, hchw, hlvw⟩ := chunk_window_at ht1' i
        have hleg1 : MapPost cfg st st1 lvl lo hi := by
          refine MapPost_of_single hf hle hg hwf1 hoc ?_ ?_
          · rw [hclw, hchw, hv1', hc1', hv1, hc1]
            exact ⟨by omega, by omega⟩
          · rw [hlvw, hl1', hl1]
        cases hce : childEntry st1 tid i with
        | none =>
          dsimp only
          exact hleg1
        | some ctid =>
          dsimp only
          obtain ⟨n1, hn1, hlkn1⟩ := childEntry_some hce
          obtain rfl : n1 = t1' := by
            rw [hn1] at ht1'
            exact (Option.some.inj ht1')
          have hctlv : levelOf st1 ctid = lvl + 1 := by
            rw [(hwf1.2 tid n1 i ctid hn1 hlkn1).2, hl1', hl1]
          set r := template.copyAddr (va + i * c) with hr
          have hrlen : r.length = c := hlc
          have hraddr : r.addr = va + i * c := rfl
          have hoccp : OccP st1 (levelOf st1 ctid) r.addr (r.addr + r.length) := by
            rw [hctlv, hraddr, hrlen]
            unfold OccP
            intro x k hoccx hlevx hsub
            rcases hoc x k hoccx with hold | ⟨hxe, hke⟩
            · have hxlt : x < st.tables.length := occB_lt hold
              obtain ⟨hcl, hch, hlv⟩ := chunk_eq_of_geom (hg x hxlt) k
              refine hocc x k hold ?_ i (List.mem_cons_self i rest) ?_
              · rw [← hlv]
                omega
              · rw [← hcl, ← hch]
                exact hsub
            · rw [hxe] at hlevx
              rw [hlvw, hl1', hl1] at hlevx
              omega
          have hm := hmr st1 ctid r hwf1 (by rw [hrlen]; exact hc0) hoccp
          rw [hctlv, hraddr, hrlen] at hm
          have hm' : MapPost cfg st1 (mr st1 ctid r).st lvl lo hi :=
            MapPost_mono hm (Nat.le_succ lvl) hwl hwh
          cases hok : (mr st1 ctid r).ok with
          | false =>
            simp only [Bool.false_eq_true, if_false]
            exact MapPost_trans hleg1 hm'
          | true =>
            simp only [if_true]
            obtain ⟨hfm, hlem, hgm, hwfm, hocm⟩ := hm
            have hgcomp : geomOf (mr st1 ctid r).st tid = geomOf st tid := by
              rw [hgm tid (lt_of_lt_of_le htid hle), hg tid htid]
            obtain ⟨t1z, ht1z, -, hlz, hcz, hvz⟩ := geom_some_parts hgcomp ht1
            refine MapPost_trans hleg1 (MapPost_trans hm'
              (mapChunksLoop_post cfg mr hsupp hmr tid blocksOk template va c lvl lo hi hlc
                rest _ t1z hwfm ht1z (by rw [hlz, hl1]) (by rw [hcz, hc1]) (by rw [hvz, hv1])
                (List.nodup_cons.1 hnd).2
                (fun j hj => hwin j (List.mem_cons_of_mem _ hj)) ?_))
            intro x k hoccx hlevx j hj hsub
            rcases hocm x k hoccx with hold1 | ⟨hmeets, -⟩
            · rcases hoc x k hold1 with hold | ⟨hxe, hke⟩
              · have hxlt : x < st.tables.length := occB_lt hold
                have hxlt1 : x < st1.tables.length := occB_lt hold1
                obtain ⟨hcl2, hch2, hlv2⟩ := chunk_eq_of_geom (hgm x hxlt1) k
                obtain ⟨hcl1, hch1, hlv1⟩ := chunk_eq_of_geom (hg x hxlt) k
                exact hocc x k hold (by rw [← hlv1, ← hlv2]; exact hlevx) j
                  (List.mem_cons_of_mem _ hj)
                  (by rw [← hcl1, ← hch1, ← hcl2, ← hch2]; exact hsub)
              · obtain ⟨hclz, hchz, -⟩ := chunk_window_at ht1z i
                rw [hxe, hke] at hsub
                rw [hclz, hchz, hvz, hcz, hv1, hc1] at hsub
                unfold ivSub at hsub
                have hij : i = j := by
                  refine grid_index_eq hc0 ?_ ?_ <;> omega
                exact hinotin (hij ▸ hj)
            · unfold ivMeets at hmeets
              unfold ivSub at hsub
              have hij : i = j := by
                refine grid_index_eq hc0 ?_ ?_ <;> omega
              exact hinotin (hij ▸ hj)

/-- The loop index list has no duplicates. -/
theorem loopIndices_nodup (s : Nat) (n : Int) : (loopIndices s n).Nodup := by
  unfold loopIndices
  refine List.Nodup.map ?_ (List.nodup_range _)
  intro a b h
  dsimp only at h
  omega

/-- Setting `num_contig` on a stored block run changes no key, no geometry
and no flag: it satisfies `MapPost` for any interval. -/
theorem setNumContig_post (cfg : Config) (st : St) (tid idx n : Nat)
    (hwf : WF cfg st) (lvl lo hi : Nat) :
    MapPost cfg st (setNumContig st tid idx n) lvl lo hi := by
  unfold setNumContig
  cases ht : st.tables[tid]? with
  | none => exact MapPost_refl cfg st lvl lo hi hwf
  | some t =>
    dsimp only
    cases hl : dictLookup t.entries idx with
    | none => exact MapPost_refl cfg st lvl lo hi hwf
    | some e =>
      cases e with
      | table c => exact MapPost_refl cfg st lvl lo hi hwf
      | region r =>
        dsimp only [St.setTable]
        have htid : tid < st.tables.length := (List.getElem?_eq_some.1 ht).1
        set t' : TableNode := { t with entries :=
          (dictSet t.entries idx (Entry.region { r with num_contig := n })).1 } with ht'
        have hlook : ∀ x, (st.tables.set tid t')[x]? =
            if x = tid then some t' else st.tables[x]? := by
          intro x
          by_cases hx : x = tid
          · subst hx
            rw [if_pos rfl]
            exact List.getElem?_set_eq_of_lt _ htid
          · rw [if_neg hx, List.getElem?_set_ne (fun h => hx h.symm)]
        have hlk' : ∀ k, dictLookup t'.entries k =
            if idx = k then some (Entry.region { r with num_contig := n })
            else dictLookup t.entries k := by
          intro k
          rw [ht']
          exact dictSet_lookup t.entries idx _ k
        have hgeom : ∀ x, x < st.tables.length →
            geomOf ⟨st.tables.set tid t', st.overwrote⟩ x = geomOf st x := by
          intro x hx
          unfold geomOf
          dsimp only
          rw [hlook x]
          by_cases hxt : x = tid
          · subst hxt
            rw [if_pos rfl, ht, ht']
            rfl
          · rw [if_neg hxt]
        have hlevelOf : ∀ x,
            levelOf ⟨st.tables.set tid t', st.overwrote⟩ x = levelOf st x := by
          intro x
          unfold levelOf
          dsimp only
          rw [hlook x]
          by_cases hxt : x = tid
          · subst hxt
            rw [if_pos rfl, ht, ht']
          · rw [if_neg hxt]
        refine ⟨rfl, by simp, hgeom, ⟨?_, ?_⟩, ?_⟩
        · intro x nn hx
          dsimp only at hx
          rw [hlook x] at hx
          by_cases hxt : x = tid
          · rw [if_pos hxt] at hx
            obtain rfl : t' = nn := Option.some.inj hx
            rw [ht']
            exact hwf.1 tid t ht
          · rw [if_neg hxt] at hx
            exact hwf.1 x nn hx
        · intro x nn k cc hx hlkx
          dsimp only at hx
          rw [hlook x] at hx
          by_cases hxt : x = tid
          · rw [if_pos hxt] at hx
            obtain rfl : t' = nn := Option.some.inj hx
            rw [hlk' k] at hlkx
            by_cases hik : idx = k
            · rw [if_pos hik] at hlkx
              exact absurd hlkx (by simp)
            · rw [if_neg hik] at hlkx
              obtain ⟨hc1, hc2⟩ := hwf.2 tid t k cc ht hlkx
              refine ⟨by simpa using hc1, ?_⟩
              rw [hlevelOf cc, hc2, ht']
          · rw [if_neg hxt] at hx
            obtain ⟨hc1, hc2⟩ := hwf.2 x nn k cc hx hlkx
            refine ⟨by simpa using hc1, ?_⟩
            rw [hlevelOf cc, hc2]
        · intro x k hocc
          refine Or.inl ?_
          unfold occB at hocc ⊢
          dsimp only at hocc
          rw [hlook x] at hocc
          by_cases hxt : x = tid
          · subst hxt
            rw [if_pos rfl] at hocc
            rw [ht]
            have hocc2 : dictContains t'.entries k = true := hocc
            rw [dictContains, hlk' k] at hocc2
            by_cases hik : idx = k
            · show dictContains t.entries k = true
              rw [dictContains, ← hik, hl]
              rfl
            · rw [if_neg hik] at hocc2
              exact hocc2
          · rw [if_neg hxt] at hocc
            exact hocc

/-- Postcondition of the complete-chunks phase (`pgtt/table.py` lines
139-157): if every loop window lies inside `[lo, hi)` and no occupied chunk
at this level or deeper sits inside any loop window, the phase satisfies
`MapPost` — the caller's region object is mutated but no index is assigned
twice. -/
theorem mapCompletePhase_post (cfg : Config) (mr : St → Nat → Region → MapResult)
    (st2 : St) (tid : Nat) (region : Region) (t0 : TableNode) (startIdx1 : Nat)
    (t1 : TableNode) (lvl lo hi : Nat)
    (hsupp : cfg.tg ∈ supportedTg) (hmr : MRCallbackOK cfg mr) (hwf : WF cfg st2)
    (ht1 : st2.tables[tid]? = some t1)
    (hl1 : t1.level = lvl) (hc1 : t1.chunk = t0.chunk) (hv1 : t1.va_base = t0.va_base)
    (hwin : ∀ i ∈ loopIndices startIdx1 (numChunksFinal region.addr region.length t0.chunk),
      lo ≤ t0.va_base + i * t0.chunk ∧ t0.va_base + i * t0.chunk + t0.chunk ≤ hi)
    (hocc : ∀ x k, occB st2 x k = true → lvl ≤ levelOf st2 x →
      ∀ j ∈ loopIndices startIdx1 (numChunksFinal region.addr region.length t0.chunk),
        ¬ ivSub (chunkLo st2 x k) (chunkHi st2 x k)
          (t0.va_base + j * t0.chunk) (t0.va_base + j * t0.chunk + t0.chunk)) :
    MapPost cfg st2 (mapCompletePhase cfg mr st2 tid region t0 startIdx1).st lvl lo hi := by
  unfold mapCompletePhase
  dsimp only
  have hpost := mapChunksLoop_post cfg mr hsupp hmr tid
    (blocksAllowedAt cfg t0.level) { region with length := t0.chunk }
    t0.va_base t0.chunk lvl lo hi rfl
    (loopIndices startIdx1 (numChunksFinal region.addr region.length t0.chunk))
    st2 t1 hwf ht1 hl1 hc1 hv1 (loopIndices_nodup _ _) hwin hocc
  cases hp2 : (mapChunksLoop cfg mr tid (blocksAllowedAt cfg t0.level)
      { region with length := t0.chunk } t0.va_base t0.chunk st2
      (loopIndices startIdx1 (numChunksFinal region.addr region.length t0.chunk))).2 with
  | false =>
    simp only [Bool.false_eq_true, if_false]
    exact hpost
  | true =>
    simp only [if_true]
    by_cases hn : 0 < (loopIndices startIdx1
        (numChunksFinal region.addr region.length t0.chunk)).length
    · rw [if_pos hn]
      exact MapPost_trans hpost
        (setNumContig_post cfg _ tid startIdx1 _ hpost.2.2.2.1 lvl lo hi)
    · rw [if_neg hn]
      exact hpost

/-- Postcondition of the overflow-plus-complete-chunks tail of `Table.map`
(`pgtt/table.py` lines 130-157).  `startIdx1` is `start_idx` after the
underflow bump; the covered interval starts at its window.  Under the
occupancy precondition no index is assigned twice on any path. -/
theorem mapTail_post (cfg : Config) (mr : St → Nat → Region → MapResult)
    (st : St) (tid : Nat) (region : Region) (t0 : TableNode) (startIdx1 : Nat)
    (t1 : TableNode)
    (hsupp : cfg.tg ∈ supportedTg) (hmr : MRCallbackOK cfg mr) (hwf : WF cfg st)
    (ht1 : st.tables[tid]? = some t1)
    (hl1 : t1.level = t0.level) (hc1 : t1.chunk = t0.chunk) (hv1 : t1.va_base = t0.va_base)
    (hVBle : t0.va_base ≤ region.addr)
    (hcle : t0.chunk ≤ region.length)
    (hs1 : startIdx1 = (region.addr - t0.va_base) / t0.chunk +
      (if underflowOf region.addr t0.chunk ≠ 0 then 1 else 0))
    (hocc : ∀ x k, occB st x k = true → t0.level ≤ levelOf st x →
      ¬ ivSub (chunkLo st x k) (chunkHi st x k)
        (t0.va_base + startIdx1 * t0.chunk) (region.addr + region.length)) :
    MapPost cfg st (mapTail cfg mr st tid region t0 startIdx1).st t0.level
      (t0.va_base + startIdx1 * t0.chunk) (region.addr + region.length) := by
  have htid : tid < st.tables.length := (List.getElem?_eq_some.1 ht1).1
  have hc0 : 0 < t0.chunk := by
    rw [← hc1, (hwf.1 tid t1 ht1).2.1]
    exact chunk_formula_pos hsupp _
  have halign : entriesPerTable cfg.tg * t0.chunk ∣ t0.va_base := by
    have h := (hwf.1 tid t1 ht1).2.2
    rw [hc1, hv1] at h
    exact h
  obtain ⟨w, hw⟩ : t0.chunk ∣ t0.va_base :=
    dvd_trans (dvd_mul_left _ _) halign
  -- decompose the offset and the length along the chunk grid
  have hax : region.addr = t0.va_base + (region.addr - t0.va_base) := by omega
  obtain ⟨q1, r1, hx, hr1⟩ :
      ∃ q r, region.addr - t0.va_base = q * t0.chunk + r ∧ r < t0.chunk :=
    ⟨_, _, by rw [Nat.mul_comm]; exact (Nat.div_add_mod _ t0.chunk).symm,
      Nat.mod_lt _ hc0⟩
  obtain ⟨q2, r2, hL, hr2⟩ :
      ∃ q r, region.length = q * t0.chunk + r ∧ r < t0.chunk :=
    ⟨_, _, by rw [Nat.mul_comm]; exact (Nat.div_add_mod _ t0.chunk).symm,
      Nat.mod_lt _ hc0⟩
  have hq2pos : 1 ≤ q2 := by
    rcases Nat.eq_zero_or_pos q2 with h0 | h
    · rw [h0] at hL
      simp at hL
      omega
    · exact h
  have hu : underflowOf region.addr t0.chunk = r1 := by
    unfold underflowOf
    rw [hax, hx, hw]
    have h : t0.chunk * w + (q1 * t0.chunk + r1) =
        t0.chunk * (w + q1) + r1 := by ring
    rw [h, Nat.mul_add_mod, Nat.mod_eq_of_lt hr1]
  have ho : overflowOf region.addr region.length t0.chunk =
      (r1 + r2) % t0.chunk := by
    unfold overflowOf
    rw [hax, hx, hL, hw]
    have h : t0.chunk * w + (q1 * t0.chunk + r1) + (q2 * t0.chunk + r2) =
        t0.chunk * (w + q1 + q2) + (r1 + r2) := by ring
    rw [h, Nat.mul_add_mod]
  have hn0 : numChunksInit region.length t0.chunk = q2 := by
    unfold numChunksInit
    rw [hL]
    have h : q2 * t0.chunk + r2 = t0.chunk * q2 + r2 := by ring
    rw [h, Nat.mul_add_div hc0, Nat.div_eq_of_lt hr2]
    omega
  have hq1v : (region.addr - t0.va_base) / t0.chunk = q1 := by
    rw [hx]
    have h : q1 * t0.chunk + r1 = t0.chunk * q1 + r1 := by ring
    rw [h, Nat.mul_add_div hc0, Nat.div_eq_of_lt hr1]
    omega
  rw [hq1v] at hs1
  rw [hu] at hs1
  have hxL : region.addr + region.length =
      t0.va_base + ((q1 + q2) * t0.chunk + (r1 + r2)) := by
    rw [hax, hx, hL]
    ring
  have hs1le : startIdx1 ≤ q1 + q2 := by
    rw [hs1]
    by_cases h : r1 ≠ 0
    · rw [if_pos h]
      omega
    · rw [if_neg h]
      omega
  -- the numeric value of num_chunks at loop entry
  have hnf : numChunksFinal region.addr region.length t0.chunk =
      (q2 : Int) - (if (r1 + r2) % t0.chunk ≠ 0 then 1 else 0) -
        (if r1 + (r1 + r2) % t0.chunk = t0.chunk then 1 else 0) := by
    unfold numChunksFinal
    rw [hu, ho, hn0]
    dsimp only
    by_cases h1 : (r1 + r2) % t0.chunk ≠ 0 <;>
      by_cases h2 : r1 + (r1 + r2) % t0.chunk = t0.chunk <;>
      simp [h1, h2]
  -- the overflow remainder, with its two-window value
  obtain ⟨O, hOdef, hOcase⟩ :
      ∃ O, (r1 + r2) % t0.chunk = O ∧
        ((r1 + r2 < t0.chunk ∧ O = r1 + r2) ∨
          (t0.chunk ≤ r1 + r2 ∧ O + t0.chunk = r1 + r2)) := by
    refine ⟨(r1 + r2) % t0.chunk, rfl, ?_⟩
    by_cases h : r1 + r2 < t0.chunk
    · exact Or.inl ⟨h, Nat.mod_eq_of_lt h⟩
    · refine Or.inr ⟨by omega, ?_⟩
      have h2 : r1 + r2 - t0.chunk < t0.chunk := by omega
      have h3 : (r1 + r2) % t0.chunk = (r1 + r2 - t0.chunk) % t0.chunk := by
        conv_lhs => rw [show r1 + r2 = (r1 + r2 - t0.chunk) + 1 * t0.chunk by omega]
        rw [Nat.add_mul_mod_self_right]
      rw [h3, Nat.mod_eq_of_lt h2]
      omega
  -- bound on every loop index
  have hmem : ∀ i ∈ loopIndices startIdx1
      (numChunksFinal region.addr region.length t0.chunk),
      startIdx1 ≤ i ∧
      (i + 1 ≤ q1 + q2 ∨ (i + 1 ≤ q1 + q2 + 1 ∧ r1 + r2 = t0.chunk)) := by
    intro i hi
    rw [mem_loopIndices] at hi
    refine ⟨hi.1, ?_⟩
    have hi2 := hi.2
    rw [hnf, hOdef] at hi2
    rw [hs1] at hi2
    split at hi2 <;> split at hi2 <;> split at hi2 <;> omega
  -- the window of every loop index sits inside the covered interval
  have hwinf : ∀ i ∈ loopIndices startIdx1
      (numChunksFinal region.addr region.length t0.chunk),
      t0.va_base + startIdx1 * t0.chunk ≤ t0.va_base + i * t0.chunk ∧
      t0.va_base + i * t0.chunk + t0.chunk ≤ region.addr + region.length := by
    intro i hi
    obtain ⟨hlo, hhiv⟩ := hmem i hi
    constructor
    · have := Nat.mul_le_mul_right t0.chunk hlo
      omega
    · rw [hxL]
      rcases hhiv with hc2 | ⟨hc2, hsum⟩
      · have h3 := Nat.mul_le_mul_right t0.chunk hc2
        rw [Nat.succ_mul] at h3
        have h4 := Nat.mul_le_mul_right t0.chunk (show q1 + q2 ≤ q1 + q2 from le_refl _)
        omega
      · have h3 := Nat.mul_le_mul_right t0.chunk hc2
        rw [Nat.succ_mul, Nat.succ_mul] at h3
        omega
  unfold mapTail
  dsimp only
  rw [hu, ho, hn0, hOdef]
  by_cases hoz : O ≠ 0
  · rw [if_pos hoz]
    -- overflow branch
    have hfIeq : startIdx1 + q2 - (if r1 ≠ 0 then 1 else 0) = q1 + q2 := by
      rw [hs1]
      by_cases h : r1 ≠ 0 <;> simp [h]
    -- the value written as the child's va_base
    have hdivsum : (region.addr + region.length) / t0.chunk =
        w + (q1 + q2) + (r1 + r2) / t0.chunk := by
      rw [hxL, hw]
      have h : t0.chunk * w + ((q1 + q2) * t0.chunk + (r1 + r2)) =
          t0.chunk * (w + (q1 + q2)) + (r1 + r2) := by ring
      rw [h, Nat.mul_add_div hc0]
    have hdiv2 : (r1 + r2) / t0.chunk = if r1 + r2 < t0.chunk then 0 else 1 := by
      by_cases h : r1 + r2 < t0.chunk
      · rw [if_pos h, Nat.div_eq_of_lt h]
      · rw [if_neg h]
        rw [show r1 + r2 = (r1 + r2 - t0.chunk) + 1 * t0.chunk by omega]
        rw [Nat.add_mul_div_right _ _ hc0, Nat.div_eq_of_lt (by omega)]
    have hvb : ((region.addr + region.length) / t0.chunk) * t0.chunk =
        t0.va_base + (q1 + q2 + (r1 + r2) / t0.chunk) * t0.chunk := by
      rw [hdivsum, hw]
      ring
    have hvbge : t0.va_base + (q1 + q2) * t0.chunk ≤
        ((region.addr + region.length) / t0.chunk) * t0.chunk := by
      rw [hvb]
      have := Nat.mul_le_mul_right t0.chunk
        (show q1 + q2 ≤ q1 + q2 + (r1 + r2) / t0.chunk by omega)
      omega
    have hF8 : ((region.addr + region.length) / t0.chunk) * t0.chunk + O =
        region.addr + region.length := by
      rw [hvb, hxL]
      have h3 : (q1 + q2 + (r1 + r2) / t0.chunk) * t0.chunk =
          (q1 + q2) * t0.chunk + t0.chunk * ((r1 + r2) / t0.chunk) := by ring
      have h4 := Nat.div_add_mod (r1 + r2) t0.chunk
      rw [hOdef] at h4
      omega
    have hF5 : t0.va_base + (q1 + q2) * t0.chunk < region.addr + region.length := by
      rw [hxL]
      have : r1 + r2 ≠ 0 := by omega
      omega
    have hF7 : t0.va_base + startIdx1 * t0.chunk ≤
        ((region.addr + region.length) / t0.chunk) * t0.chunk := by
      have := Nat.mul_le_mul_right t0.chunk hs1le
      omega
    cases hpn : prepareNext cfg st tid (startIdx1 + q2 - if r1 ≠ 0 then 1 else 0)
        (some (((region.addr + region.length) / t0.chunk) * t0.chunk)) with
    | none =>
      dsimp only
      exact MapPost_refl cfg st t0.level _ _ hwf
    | some st1 =>
      dsimp only
      obtain ⟨hf, hle, hg, hwf1, hoc, -⟩ :=
        prepareNext_post ht1 hsupp hwf hpn
          (fun v hv => by
            obtain rfl : ((region.addr + region.length) / t0.chunk) * t0.chunk = v :=
              Option.some.inj hv
            rw [hc1]
            exact dvd_mul_left t0.chunk _)
      obtain ⟨t1', ht1', -, hl1', hc1', hv1'⟩ := geom_some_parts (hg tid htid) ht1
      obtain ⟨hclw, hchw, hlvw⟩ := chunk_window_at ht1'
        (startIdx1 + q2 - if r1 ≠ 0 then 1 else 0)
      have hleg1 : MapPost cfg st st1 t0.level
          (t0.va_base + startIdx1 * t0.chunk) (region.addr + region.length) := by
        refine MapPost_of_single hf hle hg hwf1 hoc ?_ ?_
        · rw [hclw, hchw, hv1', hc1', hv1, hc1, hfIeq]
          have h5 := Nat.mul_le_mul_right t0.chunk hs1le
          exact ⟨by omega, by omega⟩
        · rw [hlvw, hl1', hl1]
      cases hce : childEntry st1 tid (startIdx1 + q2 - if r1 ≠ 0 then 1 else 0) with
      | none =>
        dsimp only
        exact hleg1
      | some ctid =>
        dsimp only
        obtain ⟨n1, hn1, hlkn1⟩ := childEntry_some hce
        obtain rfl : n1 = t1' := by
          rw [hn1] at ht1'
          exact Option.some.inj ht1'
        have hctlv : levelOf st1 ctid = t0.level + 1 := by
          rw [(hwf1.2 tid n1 _ ctid hn1 hlkn1).2, hl1', hl1]
        set rr := region.copyAddrLength
          (((region.addr + region.length) / t0.chunk) * t0.chunk) O with hrr
        have hrraddr : rr.addr = ((region.addr + region.length) / t0.chunk) * t0.chunk :=
          rfl
        have hrrlen : rr.length = O := rfl
        have hoccp : OccP st1 (levelOf st1 ctid) rr.addr (rr.addr + rr.length) := by
          rw [hctlv, hrraddr, hrrlen]
          unfold OccP
          intro x k hoccx hlevx hsub
          rcases hoc x k hoccx with hold | ⟨hxe, hke⟩
          · have hxlt : x < st.tables.length := occB_lt hold
            obtain ⟨hcl, hch, hlv⟩ := chunk_eq_of_geom (hg x hxlt) k
            refine hocc x k hold (by rw [← hlv]; omega) ?_
            unfold ivSub at hsub ⊢
            rw [hcl, hch] at hsub
            omega
          · rw [hxe] at hlevx
            rw [hlvw, hl1', hl1] at hlevx
            omega
        have hm := hmr st1 ctid rr hwf1 (by rw [hrrlen]; omega) hoccp
        rw [hctlv, hrraddr, hrrlen] at hm
        have hm' : MapPost cfg st1 (mr st1 ctid rr).st t0.level
            (t0.va_base + startIdx1 * t0.chunk) (region.addr + region.length) :=
          MapPost_mono hm (Nat.le_succ _) hF7 (by omega)
        cases hok : (mr st1 ctid rr).ok with
        | false =>
          simp only [Bool.false_eq_true, if_false]
          exact MapPost_trans hleg1 hm'
        | true =>
          simp only [if_true]
          obtain ⟨hfm, hlem, hgm, hwfm, hocm⟩ := hm
          have hgcomp : geomOf (mr st1 ctid rr).st tid = geomOf st tid := by
            rw [hgm tid (lt_of_lt_of_le htid hle), hg tid htid]
          obtain ⟨t1z, ht1z, -, hlz, hcz, hvz⟩ := geom_some_parts hgcomp ht1
          refine MapPost_trans hleg1 (MapPost_trans hm'
            (mapCompletePhase_post cfg mr _ tid region t0 startIdx1 t1z t0.level
              (t0.va_base + startIdx1 * t0.chunk) (region.addr + region.length)
              hsupp hmr hwfm ht1z (by rw [hlz, hl1]) (by rw [hcz, hc1]) (by rw [hvz, hv1])
              hwinf ?_))
          intro x k hoccx hlevx j hj hsub
          obtain ⟨hjlo, hjhi⟩ := hmem j hj
          have hjq : j + 1 ≤ q1 + q2 := by
            rcases hjhi with h | ⟨-, hsum⟩
            · exact h
            · exfalso
              have : (r1 + r2) % t0.chunk = 0 := by
                rw [hsum, Nat.mod_self]
              omega
          rcases hocm x k hoccx with hold1 | ⟨hmeets, -⟩
          · rcases hoc x k hold1 with hold | ⟨hxe, hke⟩
            · have hxlt : x < st.tables.length := occB_lt hold
              have hxlt1 : x < st1.tables.length := occB_lt hold1
              obtain ⟨hcl2, hch2, hlv2⟩ := chunk_eq_of_geom (hgm x hxlt1) k
              obtain ⟨hcl1, hch1, hlv1⟩ := chunk_eq_of_geom (hg x hxlt) k
              obtain ⟨hwlo, hwhi⟩ := hwinf j hj
              refine hocc x k hold (by rw [← hlv1, ← hlv2]; exact hlevx) ?_
              unfold ivSub at hsub ⊢
              rw [hcl2, hch2, hcl1, hch1] at hsub
              omega
            · -- the overflow child entry itself: its index is past every loop index
              obtain ⟨hclz, hchz, -⟩ := chunk_window_at ht1z
                (startIdx1 + q2 - if r1 ≠ 0 then 1 else 0)
              rw [hxe, hke] at hsub
              rw [hclz, hchz, hvz, hcz, hv1, hc1, hfIeq] at hsub
              unfold ivSub at hsub
              have hjf : j = q1 + q2 := by
                refine Nat.eq_of_mul_eq_mul_right hc0 (Nat.le_antisymm ?_ ?_) <;> omega
              omega
          · -- entries of the overflow child's subtree sit at or above vb
            unfold ivMeets at hmeets
            unfold ivSub at hsub
            have h6 := Nat.mul_le_mul_right t0.chunk hjq
            rw [Nat.succ_mul] at h6
            omega
  · rw [if_neg hoz]
    exact mapCompletePhase_post cfg mr st tid region t0 startIdx1 t1 t0.level
      (t0.va_base + startIdx1 * t0.chunk) (region.addr + region.length)
      hsupp hmr hwf ht1 (by rw [hl1]) hc1 hv1 hwinf
      (fun x k hoccx hlevx j hj hsub => by
        obtain ⟨hwlo, hwhi⟩ := hwinf j hj
        refine hocc x k hoccx hlevx ?_
        unfold ivSub at hsub ⊢
        omega)

/-- After a `prepare_next` (or any step whose only new occupancy is the
parent entry at level `lvl`), a sub-piece of a clear interval is clear one
level down. -/
theorem OccP_child {st st1 : St} {tid idx : Nat} {lvl lo hi plo phi : Nat}
    (hg : ∀ x, x < st.tables.length → geomOf st1 x = geomOf st x)
    (hoc : ∀ x k, occB st1 x k = true → occB st x k = true ∨ (x = tid ∧ k = idx))
    (hlevtid : levelOf st1 tid = lvl)
    (hoccp : ∀ x k, occB st x k = true → lvl ≤ levelOf st x →
      ¬ ivSub (chunkLo st x k) (chunkHi st x k) lo hi)
    (hlo : lo ≤ plo) (hhi : phi ≤ hi) :
    OccP st1 (lvl + 1) plo phi := by
  unfold OccP
  intro x k hoccx hlevx hsubx
  rcases hoc x k hoccx with hold | ⟨hxe, hke⟩
  · have hxlt : x < st.tables.length := occB_lt hold
    obtain ⟨hcl, hch, hlv⟩ := chunk_eq_of_geom (hg x hxlt) k
    refine hoccp x k hold (by rw [← hlv]; omega) ?_
    unfold ivSub at hsubx ⊢
    rw [hcl, hch] at hsubx
    omega
  · rw [hxe, hlevtid] at hlevx
    omega

/-- On an in-bounds address of an aligned table span, `start_idx` is the
offset in chunks and `underflow` the offset in the chunk. -/
theorem startIdx_decomp (ept c VB a : Nat) (hc : 0 < c)
    (halign : ept * c ∣ VB) (h1 : VB ≤ a) (h2 : a < VB + ept * c) :
    startIdxOf a c ept = (a - VB) / c ∧
    underflowOf a c = (a - VB) % c := by
  obtain ⟨m, hm⟩ := halign
  obtain ⟨x, hxeq, hxlt⟩ : ∃ x, a = VB + x ∧ x < ept * c := ⟨a - VB, by omega, by omega⟩
  have hxv : a - VB = x := by omega
  rw [hxv]
  constructor
  · unfold startIdxOf
    rw [hxeq, hm]
    have h3 : ept * c * m + x = c * (ept * m) + x := by ring
    rw [h3, Nat.mul_add_div hc]
    have h4 : x / c < ept := by
      rw [Nat.div_lt_iff_lt_mul hc]
      omega
    have h5 : ept * m + x / c = x / c + m * ept := by ring
    rw [h5, Nat.add_mul_mod_self_right, Nat.mod_eq_of_lt h4]
  · unfold underflowOf
    rw [hxeq, hm]
    have h3 : ept * c * m + x = c * (ept * m) + x := by ring
    rw [h3, Nat.mul_add_mod]

/-- `Table.map` itself satisfies the per-call contract at every fuel: on a
table whose level clears the piece, it never assigns an entry index twice
(the flag is preserved), the arena grows monotonically, geometry and
well-formedness are kept, and every new occupancy meets the piece at this
level or deeper. -/
theorem mapRegion_callback (cfg : Config) (hsupp : cfg.tg ∈ supportedTg) :
    ∀ fuel : Nat, MRCallbackOK cfg (fun s i r => mapRegion cfg fuel s i r)
  | 0 => by
    intro st tid r hwf _ _
    exact MapPost_refl cfg st _ _ _ hwf
  | fuel + 1 => by
    have IH := mapRegion_callback cfg hsupp fuel
    intro st tid region hwf hrpos hoccp
    dsimp only
    simp only [mapRegion]
    cases ht : st.tables[tid]? with
    | none => exact MapPost_refl cfg st _ _ _ hwf
    | some t =>
      dsimp only
      have htid : tid < st.tables.length := (List.getElem?_eq_some.1 ht).1
      have hlvl : levelOf st tid = t.level := (chunk_window_at ht 0).2.2
      rw [hlvl] at hoccp ⊢
      by_cases hassert : t.va_base ≤ region.addr ∧
          region.addr + region.length ≤
            t.va_base + entriesPerTable cfg.tg * t.chunk
      · rw [if_neg (not_not_intro hassert)]
        obtain ⟨hA1, hA2⟩ := hassert
        have hc0 : 0 < t.chunk := by
          rw [(hwf.1 tid t ht).2.1]
          exact chunk_formula_pos hsupp _
        have hept2 : 2 ≤ entriesPerTable cfg.tg := (supported_tg_facts hsupp).2.2
        have halignept : entriesPerTable cfg.tg * t.chunk ∣ t.va_base :=
          (hwf.1 tid t ht).2.2
        obtain ⟨hs0, hufact⟩ := startIdx_decomp (entriesPerTable cfg.tg) t.chunk
          t.va_base region.addr hc0 halignept hA1 (by omega)
        have hdm := Nat.div_add_mod (region.addr - t.va_base) t.chunk
        have hcm : t.chunk * ((region.addr - t.va_base) / t.chunk) =
            ((region.addr - t.va_base) / t.chunk) * t.chunk := Nat.mul_comm _ _
        have hr1 : (region.addr - t.va_base) % t.chunk < t.chunk :=
          Nat.mod_lt _ hc0
        -- the window of start_idx contains the region's base address
        have hN2 : t.va_base + ((region.addr - t.va_base) / t.chunk) * t.chunk ≤
            region.addr := by omega
        have hN3 : region.addr <
            t.va_base + ((region.addr - t.va_base) / t.chunk) * t.chunk + t.chunk := by
          omega
        by_cases hfl : numChunksInit region.length t.chunk = 0
        · -- floating region: dispatch the whole region one level down
          rw [if_pos hfl]
          cases hpn : prepareNext cfg st tid
              (startIdxOf region.addr t.chunk (entriesPerTable cfg.tg)) none with
          | none =>
            dsimp only
            exact MapPost_refl cfg st _ _ _ hwf
          | some st1 =>
            dsimp only
            obtain ⟨hf, hle, hg, hwf1, hoc, -⟩ :=
              prepareNext_post ht hsupp hwf hpn (fun v hv => Option.noConfusion hv)
            obtain ⟨t1', ht1', -, hl1', hc1', hv1'⟩ := geom_some_parts (hg tid htid) ht
            obtain ⟨hclw, hchw, hlvw⟩ := chunk_window_at ht1'
              (startIdxOf region.addr t.chunk (entriesPerTable cfg.tg))
            have hleg1 : MapPost cfg st st1 t.level region.addr
                (region.addr + region.length) := by
              refine MapPost_of_single hf hle hg hwf1 hoc ?_ ?_
              · rw [hclw, hchw, hv1', hc1', hs0]
                exact ⟨by omega, by omega⟩
              · rw [hlvw, hl1']
            cases hce : childEntry st1 tid
                (startIdxOf region.addr t.chunk (entriesPerTable cfg.tg)) with
            | none =>
              dsimp only
              exact hleg1
            | some ctid =>
              dsimp only
              obtain ⟨n1, hn1, hlkn1⟩ := childEntry_some hce
              obtain rfl : n1 = t1' := by
                rw [hn1] at ht1'
                exact Option.some.inj ht1'
              have hctlv : levelOf st1 ctid = t.level + 1 := by
                rw [(hwf1.2 tid n1 _ ctid hn1 hlkn1).2, hl1']
              have hOccP1 : OccP st1 (t.level + 1) region.addr
                  (region.addr + region.length) :=
                OccP_child hg hoc (by rw [hlvw, hl1']) hoccp (le_refl _) (le_refl _)
              have hpost := IH st1 ctid region hwf1 hrpos (by rw [hctlv]; exact hOccP1)
              dsimp only at hpost
              rw [hctlv] at hpost
              exact MapPost_trans hleg1
                (MapPost_mono hpost (Nat.le_succ _) (le_refl _) (le_refl _))
        · -- at least one whole chunk
          rw [if_neg hfl]
          have hcleL : t.chunk ≤ region.length := by
            by_contra hlt
            exact hfl (by unfold numChunksInit; exact Nat.div_eq_of_lt (by omega))
          by_cases hun : underflowOf region.addr t.chunk ≠ 0
          · -- underflow: dispatch the head piece, then the tail
            rw [if_pos hun]
            cases hpn : prepareNext cfg st tid
                (startIdxOf region.addr t.chunk (entriesPerTable cfg.tg)) none with
            | none =>
              dsimp only
              exact MapPost_refl cfg st _ _ _ hwf
            | some st1 =>
              dsimp only
              obtain ⟨hf, hle, hg, hwf1, hoc, -⟩ :=
                prepareNext_post ht hsupp hwf hpn (fun v hv => Option.noConfusion hv)
              obtain ⟨t1', ht1', -, hl1', hc1', hv1'⟩ := geom_some_parts (hg tid htid) ht
              obtain ⟨hclw, hchw, hlvw⟩ := chunk_window_at ht1'
                (startIdxOf region.addr t.chunk (entriesPerTable cfg.tg))
              have hleg1 : MapPost cfg st st1 t.level region.addr
                  (region.addr + region.length) := by
                refine MapPost_of_single hf hle hg hwf1 hoc ?_ ?_
                · rw [hclw, hchw, hv1', hc1', hs0]
                  exact ⟨by omega, by omega⟩
                · rw [hlvw, hl1']
              cases hce : childEntry st1 tid
                  (startIdxOf region.addr t.chunk (entriesPerTable cfg.tg)) with
              | none =>
                dsimp only
                exact hleg1
              | some ctid =>
                dsimp only
                obtain ⟨n1, hn1, hlkn1⟩ := childEntry_some hce
                obtain rfl : n1 = t1' := by
                  rw [hn1] at ht1'
                  exact Option.some.inj ht1'
                have hctlv : levelOf st1 ctid = t.level + 1 := by
                  rw [(hwf1.2 tid n1 _ ctid hn1 hlkn1).2, hl1']
                have hupos : 0 < underflowOf region.addr t.chunk := by omega
                have hulc : underflowOf region.addr t.chunk < t.chunk := by
                  rw [hufact]
                  exact hr1
                have hOccP1 : OccP st1 (t.level + 1) region.addr
                    (region.addr + (t.chunk - underflowOf region.addr t.chunk)) :=
                  OccP_child hg hoc (by rw [hlvw, hl1']) hoccp (le_refl _) (by omega)
                have hpw : 0 < (region.copyLength
                    (t.chunk - underflowOf region.addr t.chunk)).length := by
                  show 0 < t.chunk - underflowOf region.addr t.chunk
                  omega
                have hpost := IH st1 ctid
                  (region.copyLength (t.chunk - underflowOf region.addr t.chunk))
                  hwf1 hpw (by rw [hctlv]; exact hOccP1)
                dsimp only at hpost
                rw [hctlv] at hpost
                have hpost' : MapPost cfg st1
                    (mapRegion cfg fuel st1 ctid
                      (region.copyLength (t.chunk - underflowOf region.addr t.chunk))).st
                    t.level region.addr (region.addr + region.length) :=
                  MapPost_mono hpost (Nat.le_succ _) (le_refl _) (by
                    show region.addr + (t.chunk - underflowOf region.addr t.chunk) ≤
                      region.addr + region.length
                    omega)
                cases hok : (mapRegion cfg fuel st1 ctid
                    (region.copyLength (t.chunk - underflowOf region.addr t.chunk))).ok with
                | false =>
                  simp only [Bool.false_eq_true, if_false]
                  exact MapPost_trans hleg1 hpost'
                | true =>
                  simp only [if_true]
                  obtain ⟨hfm, hlem, hgm, hwfm, hocm⟩ := hpost
                  have hgcomp : ∀ x, x < st.tables.length →
                      geomOf (mapRegion cfg fuel st1 ctid
                        (region.copyLength (t.chunk - underflowOf region.addr t.chunk))).st x =
                      geomOf st x := by
                    intro x hx
                    rw [hgm x (lt_of_lt_of_le hx hle), hg x hx]
                  obtain ⟨t1z, ht1z, -, hlz, hcz, hvz⟩ :=
                    geom_some_parts (hgcomp tid htid) ht
                  refine MapPost_trans hleg1 (MapPost_trans hpost'
                    (MapPost_mono
                      (mapTail_post cfg (fun s i r => mapRegion cfg fuel s i r) _ tid
                        region t
                        (startIdxOf region.addr t.chunk (entriesPerTable cfg.tg) + 1)
                        t1z hsupp IH hwfm ht1z hlz hcz hvz hA1 hcleL
                        (by rw [hs0, if_pos hun])
                        ?_)
                      (le_refl _) (by rw [hs0, Nat.succ_mul]; omega) (le_refl _)))
                  -- occupancy precondition for the tail on the post-underflow state
                  intro x k hoccx hlevx hsubx
                  rcases hocm x k hoccx with hold1 | ⟨hmeets, -⟩
                  · rcases hoc x k hold1 with hold | ⟨hxe, hke⟩
                    · have hxlt : x < st.tables.length := occB_lt hold
                      have hxlt1 : x < st1.tables.length := occB_lt hold1
                      obtain ⟨hcl2, hch2, hlv2⟩ := chunk_eq_of_geom (hgm x hxlt1) k
                      obtain ⟨hcl1, hch1, hlv1⟩ := chunk_eq_of_geom (hg x hxlt) k
                      refine hoccp x k hold (by rw [← hlv1, ← hlv2]; exact hlevx) ?_
                      unfold ivSub at hsubx ⊢
                      rw [hcl2, hch2, hcl1, hch1] at hsubx
                      rw [hs0, Nat.succ_mul] at hsubx
                      omega
                    · obtain ⟨hclz, hchz, -⟩ := chunk_window_at ht1z
                        (startIdxOf region.addr t.chunk (entriesPerTable cfg.tg))
                      rw [hxe, hke] at hsubx
                      rw [hclz, hchz, hvz, hcz] at hsubx
                      unfold ivSub at hsubx
                      rw [hs0, Nat.succ_mul] at hsubx
                      omega
                  · unfold ivMeets at hmeets
                    unfold ivSub at hsubx
                    have hpaddr : (region.copyLength
                        (t.chunk - underflowOf region.addr t.chunk)).addr = region.addr := rfl
                    have hplen : (region.copyLength
                        (t.chunk - underflowOf region.addr t.chunk)).length =
                      t.chunk - underflowOf region.addr t.chunk := rfl
                    rw [hpaddr, hplen] at hmeets
                    rw [hs0, Nat.succ_mul] at hsubx
                    omega
          · -- no underflow: straight to the tail
            rw [if_neg hun]
            have hr10 : (region.addr - t.va_base) % t.chunk = 0 := by
              rw [← hufact]
              omega
            refine MapPost_mono
              (mapTail_post cfg (fun s i r => mapRegion cfg fuel s i r) st tid
                region t
                (startIdxOf region.addr t.chunk (entriesPerTable cfg.tg))
                t hsupp IH hwf ht rfl rfl rfl hA1 hcleL
                (by rw [hs0, if_neg hun]; omega)
                ?_)
              (le_refl _) (by rw [hs0]; omega) (le_refl _)
            intro x k hoccx hlevx hsubx
            refine hoccp x k hoccx hlevx ?_
            unfold ivSub at hsubx ⊢
            rw [hs0] at hsubx
            omega
      · rw [if_pos hassert]
        exact MapPost_refl cfg st _ _ _ hwf

/-- The driver loop keeps the double-assignment flag clear across an
ascending, non-overlapping region list: each region only occupies chunks
meeting its own interval, which later regions never contain. -/
theorem runRegions_flag (cfg : Config) (hsupp : cfg.tg ∈ supportedTg) (fuel : Nat) :
    ∀ (rs : List Region) (st : St),
      WF cfg st →
      st.overwrote = false →
      (∃ t0, st.tables[0]? = some t0) →
      regionsSortedDisjoint rs →
      (∀ r ∈ rs, 0 < r.length) →
      (∀ r ∈ rs, OccP st (levelOf st 0) r.addr (r.addr + r.length)) →
      (runRegions cfg fuel st rs).overwrote = false
  | [], st, _, hflag, _, _, _, _ => hflag
  | r :: rest, st, hwf, hflag, ⟨t0, ht0⟩, hsort, hpos, hocc => by
    have h0 : 0 < st.tables.length := (List.getElem?_eq_some.1 ht0).1
    simp only [runRegions]
    have hmp := mapRegion_callback cfg hsupp fuel st 0 r hwf
      (hpos r (List.mem_cons_self r rest)) (hocc r (List.mem_cons_self r rest))
    dsimp only at hmp
    obtain ⟨hf, hle, hg, hwfm, hocm⟩ := hmp
    obtain ⟨hnext, hsort'⟩ := List.pairwise_cons.1 hsort
    cases hok : (mapRegion cfg fuel st 0 r).ok with
    | false =>
      simp only [Bool.false_eq_true, if_false]
      rw [hf, hflag]
    | true =>
      simp only [if_true]
      obtain ⟨t0', ht0', -, -, -, -⟩ := geom_some_parts (hg 0 h0) ht0
      have hlv0 : levelOf (mapRegion cfg fuel st 0 r).st 0 = levelOf st 0 :=
        (geom_eq_parts (hg 0 h0)).1
      refine runRegions_flag cfg hsupp fuel rest (mapRegion cfg fuel st 0 r).st
        hwfm (by rw [hf, hflag]) ⟨t0', ht0'⟩ hsort'
        (fun r' hr' => hpos r' (List.mem_cons_of_mem _ hr')) ?_
      intro r' hr'
      unfold OccP
      intro x k hoccx hlevx hsubx
      rw [hlv0] at hlevx
      rcases hocm x k hoccx with hold | ⟨hmeets, -⟩
      · have hxlt : x < st.tables.length := occB_lt hold
        obtain ⟨hcl, hch, hlv⟩ := chunk_eq_of_geom (hg x hxlt) k
        refine hocc r' (List.mem_cons_of_mem _ hr') x k hold
          (by rw [← hlv]; exact hlevx) ?_
        unfold ivSub at hsubx ⊢
        rw [hcl, hch] at hsubx
        omega
      · have hdisj : r.addr + r.length ≤ r'.addr := hnext r' hr'
        unfold ivMeets at hmeets
        unfold ivSub at hsubx
        omega

/-- C4: across the mapping of any ascending, non-overlapping,
granule-aligned region list into the table forest, no entry index of any
table is ever assigned twice (the double-assignment flag of the builder
stays `false` on every path, including aborted ones), and `prepare_next`
is idempotent: called at an index that is already occupied it is a no-op
returning the state unchanged, leaving the existing child table in place. -/
theorem C4_no_double_assignment (cfg : Config) (rs : List Region)
    (htg : cfg.tg ∈ supportedTg) (htsz : cfg.tsz ∈ supportedTsz)
    (hsort : regionsSortedDisjoint rs) (halign : regionsAligned cfg.tg rs) :
    (buildTables cfg rs).overwrote = false ∧
    (∀ (st : St) (tid idx : Nat) (va : Option Nat),
      occB st tid idx = true → prepareNext cfg st tid idx va = some st) := by
  constructor
  · -- the initial single-table state is well-formed and empty
    have hall : ∀ tg ∈ supportedTg, ∀ tsz ∈ supportedTsz,
        (startLevel tg tsz).toNat ≤ 3 := by decide
    have hlv3 : (startLevel cfg.tg cfg.tsz).toNat ≤ 3 := hall cfg.tg htg cfg.tsz htsz
    have hwfinit : WF cfg (initSt cfg) := by
      constructor
      · intro t n hx
        match t with
        | 0 =>
          obtain rfl : _ = n := Option.some.inj hx
          exact ⟨hlv3, rfl, dvd_zero _⟩
        | t + 1 => exact absurd hx (by simp [initSt, allocTable])
      · intro t n i c hx hlk
        match t with
        | 0 =>
          obtain rfl : _ = n := Option.some.inj hx
          exact absurd hlk (by simp [dictLookup])
        | t + 1 => exact absurd hx (by simp [initSt, allocTable])
    have hoccinit : ∀ t i, occB (initSt cfg) t i = false := by
      intro t i
      unfold occB
      match t with
      | 0 => rfl
      | t + 1 => simp [initSt, allocTable]
    refine runRegions_flag cfg htg 8 rs (initSt cfg) hwfinit rfl ⟨_, rfl⟩ hsort
      (fun r hr => (halign r hr).2.2) ?_
    intro r hr
    unfold OccP
    intro x k hoccx _ _
    rw [hoccinit x k] at hoccx
    exact absurd hoccx (by simp)
  · intro st tid idx va hocb
    unfold occB at hocb
    cases ht : st.tables[tid]? with
    | none =>
      rw [ht] at hocb
      exact absurd hocb (by simp)
    | some t =>
      rw [ht] at hocb
      unfold prepareNext
      rw [ht]
      dsimp only
      rw [if_pos hocb]

/-- C4, witness: a 4K/32-bit/EL2 configuration with two ascending aligned
regions; the hypotheses hold by computation and the theorem applies. -/
theorem C4_no_double_assignment_witness :
    ((⟨4 * 1024, 32, 2, 0x80000000⟩ : Config).tg ∈ supportedTg ∧
      (⟨4 * 1024, 32, 2, 0x80000000⟩ : Config).tsz ∈ supportedTsz ∧
      regionsSortedDisjoint
        [⟨1, "A", 0x1000, 0x1000, MEMORY_TYPE.device, 1⟩,
         ⟨2, "B", 0x3000, 0x2000, MEMORY_TYPE.rw_data, 1⟩] ∧
      regionsAligned (4 * 1024)
        [⟨1, "A", 0x1000, 0x1000, MEMORY_TYPE.device, 1⟩,
         ⟨2, "B", 0x3000, 0x2000, MEMORY_TYPE.rw_data, 1⟩]) ∧
    ((buildTables ⟨4 * 1024, 32, 2, 0x80000000⟩
        [⟨1, "A", 0x1000, 0x1000, MEMORY_TYPE.device, 1⟩,
         ⟨2, "B", 0x3000, 0x2000, MEMORY_TYPE.rw_data, 1⟩]).overwrote = false ∧
      (∀ (st : St) (tid idx : Nat) (va : Option Nat),
        occB st tid idx = true →
        prepareNext ⟨4 * 1024, 32, 2, 0x80000000⟩ st tid idx va = some st)) :=
  ⟨⟨by decide, by decide, by unfold regionsSortedDisjoint; decide,
      by unfold regionsAligned; decide⟩,
    C4_no_double_assignment ⟨4 * 1024, 32, 2, 0x80000000⟩
      [⟨1, "A", 0x1000, 0x1000, MEMORY_TYPE.device, 1⟩,
       ⟨2, "B", 0x3000, 0x2000, MEMORY_TYPE.rw_data, 1⟩]
      (by decide) (by decide) (by unfold regionsSortedDisjoint; decide)
      (by unfold regionsAligned; decide)⟩

end PgTT
